import Mathlib

/-!
Verification development for the `rstar_tree.py` spatial index
(base R-tree with linear split, and an R*-style variant with single-pass
forced reinsertion).

Modelling conventions:
* Python floats are modelled by exact rationals (`ℚ`); all geometric
  operations used by the code (min, max, comparison, +, -, *, /2) are
  translated verbatim over `ℚ`.
* The mutable node/parent-pointer structure is modelled by a pure nested
  tree `Node` together with paths (lists of child indices).  A parent
  pointer corresponds to the position of a node in the tree, and the
  parent-pointer repairs performed by `split_node` / `adjust_after_split`
  correspond to the explicit index adjustments of the "tracked path"
  threaded through `adjustAtTrk` below.
* Python exceptions are modelled with `Except` where a claim is about the
  error behaviour of a function.
-/

set_option allowUnsafeReducibility true
attribute [semireducible] Rat.add Rat.sub Rat.mul Rat.inv Rat.div

/-- Axis-aligned rectangle with normalized corners (class `Rect`,
`rstar_tree.py` lines 18-24).  The constructor `Rect.make` performs the
min/max normalization of `Rect.__init__`. -/
structure Rect where
  x1 : ℚ
  y1 : ℚ
  x2 : ℚ
  y2 : ℚ
deriving DecidableEq, Repr

/-- Normalizing constructor: `Rect.__init__` (lines 19-24). -/
def Rect.make (a b c d : ℚ) : Rect :=
  ⟨min a c, min b d, max a c, max b d⟩

/-- `Rect.area` (lines 26-27). -/
def Rect.area (r : Rect) : ℚ :=
  max 0 (r.x2 - r.x1) * max 0 (r.y2 - r.y1)

/-- `Rect.enlarge` (lines 29-35): componentwise min of near corners and
max of far corners (re-normalization in `Rect.__init__` is the identity
on these already-ordered coordinates, for normalized inputs). -/
def Rect.enlarge (r o : Rect) : Rect :=
  Rect.make (min r.x1 o.x1) (min r.y1 o.y1) (max r.x2 o.x2) (max r.y2 o.y2)

/-- `Rect.intersects` (lines 37-39): closed-interval overlap test. -/
def Rect.intersects (r o : Rect) : Bool :=
  !(decide (r.x2 < o.x1) || decide (r.x1 > o.x2) ||
    decide (r.y2 < o.y1) || decide (r.y1 > o.y2))

/-- Error raised by `make_point_rect` for a wrong argument count
(line 63; a `TypeError` in Python — the "arity error" of the interface). -/
inductive ArityError where
  | wrongArgCount (given : Nat)
deriving DecidableEq, Repr

/-- `make_point_rect(*args)` (lines 46-63): accepts exactly 2, 3 or 4
coordinates and raises for every other argument count. -/
def makePointRect (args : List ℚ) : Except ArityError Rect :=
  match args with
  | [x, y] => .ok (Rect.make x y x y)
  | [x, y, size] => .ok (Rect.make x y (x + size) (y + size))
  | [a, b, c, d] => .ok (Rect.make a b c d)
  | _ => .error (.wrongArgCount args.length)

/-- Tree node (class `Node`, lines 117-128): a leaf holds
(rectangle, payload) entries, an internal node holds
(rectangle, child) entries.  The Python `leaf` flag and the
payload-vs-child union are modelled by the two constructors; the
`parent` back-pointer is modelled by the position (path) of a node in
the tree. -/
inductive Node (α : Type) where
  | leaf (es : List (Rect × α))
  | node (es : List (Rect × Node α))
deriving Repr

/-- Number of entries held directly by a node. -/
def Node.entriesLen {α : Type} : Node α → Nat
  | .leaf es => es.length
  | .node es => es.length

/-- Entry list of a leaf node (and `[]` on an internal node). -/
def Node.leafEntries {α : Type} : Node α → List (Rect × α)
  | .leaf es => es
  | .node _ => []

/-- Top-level entry rectangles of a node. -/
def Node.rects {α : Type} : Node α → List Rect
  | .leaf es => es.map Prod.fst
  | .node es => es.map Prod.fst

/-- Running enlargement of a list of rectangles starting from the head
(the loop of `Node.mbr`, lines 130-135).  The Python code asserts the
entry list is nonempty; the `[]` case returns a degenerate rectangle for
totality and is never reached on nodes produced by the algorithms. -/
def rectsMBR : List Rect → Rect
  | [] => Rect.make 0 0 0 0
  | r :: t => t.foldl Rect.enlarge r

/-- `Node.mbr` (lines 130-135). -/
def Node.mbr {α : Type} (n : Node α) : Rect :=
  rectsMBR n.rects

/-- Payloads of the leaf entries intersecting the window, in entry order
(the leaf branch of `RTree.range_query`, lines 161-166). -/
def collectLeaf {α : Type} (w : Rect) : List (Rect × α) → List α
  | [] => []
  | e :: t => if w.intersects e.1 then e.2 :: collectLeaf w t else collectLeaf w t

mutual
/-- `RTree.range_query` traversal (lines 156-169), returning the payload
list in traversal order together with the number of nodes entered (each
entered node performs one `self._visit()`, line 159). -/
def rangeQueryN {α : Type} (w : Rect) : Node α → List α × Nat
  | .leaf es => (collectLeaf w es, 1)
  | .node es =>
    let r := rangeQueryL w es
    (r.1, r.2 + 1)
/-- Loop of `range_query` over an internal node's entries: children whose
rectangle does not intersect the window are skipped (lines 162-168). -/
def rangeQueryL {α : Type} (w : Rect) : List (Rect × Node α) → List α × Nat
  | [] => ([], 0)
  | e :: t =>
    let rest := rangeQueryL w t
    if w.intersects e.1 then
      let sub := rangeQueryN w e.2
      (sub.1 ++ rest.1, sub.2 + rest.2)
    else rest
end

/-- Enlargement key of `choose_leaf` (lines 179-180):
`(marginal area increase, current area)`. -/
def chooseKey (rc r : Rect) : ℚ × ℚ :=
  ((r.enlarge rc).area - r.area, r.area)

/-- Strict lexicographic comparison of `choose_leaf` keys (Python tuple
`<` on `(inc, area)` pairs, line 181). -/
def keyLt (a b : ℚ × ℚ) : Bool :=
  decide (a.1 < b.1) || (decide (a.1 = b.1) && decide (a.2 < b.2))

/-- Loop of `choose_leaf` (lines 176-183) over the remaining entry
rectangles: keeps the index of the first strict minimum of the key. -/
def bestIdxAux (rc : Rect) : Nat → Nat × (ℚ × ℚ) → List Rect → Nat
  | _, best, [] => best.1
  | i, best, r :: t =>
    if keyLt (chooseKey rc r) best.2
    then bestIdxAux rc (i + 1) (i, chooseKey rc r) t
    else bestIdxAux rc (i + 1) best t

/-- Index of the child selected by `choose_leaf` at one internal node
(lines 176-184): minimal area enlargement, ties by area, first winner. -/
def bestIdx (rc : Rect) : List Rect → Nat
  | [] => 0
  | r :: t => bestIdxAux rc 1 (0, chooseKey rc r) t

mutual
/-- Path (list of child indices) of the leaf reached by `choose_leaf`
descending from the given node (lines 172-184). -/
def leafPath {α : Type} (rc : Rect) : Node α → List Nat
  | .leaf _ => []
  | .node es => bestIdx rc (es.map Prod.fst) :: leafPathL rc (bestIdx rc (es.map Prod.fst)) es
/-- Descent into the i-th child for `leafPath` (`choose_leaf` recursing
into `best_child`, line 184). -/
def leafPathL {α : Type} (rc : Rect) : Nat → List (Rect × Node α) → List Nat
  | _, [] => []
  | 0, e :: _ => leafPath rc e.2
  | i + 1, _ :: t => leafPathL rc i t
end

mutual
/-- Append an entry to the leaf at the given path (`leaf.add(rect, data)`
at the leaf located by `choose_leaf`; `Node.add`, lines 124-128, and
line 188/260).  Ancestor entry rectangles are not touched, exactly as in
the source.  An invalid path leaves the tree unchanged (never happens on
paths produced by `leafPath` on well-formed trees). -/
def addAtPath {α : Type} (rc : Rect) (d : α) : Node α → List Nat → Node α
  | .leaf es, [] => .leaf (es ++ [(rc, d)])
  | .node es, i :: p => .node (addAtPathL rc d es i p)
  | n, _ => n
/-- List walker for `addAtPath`: descends to the i-th child, keeping the
parent's stored rectangle for that child unchanged. -/
def addAtPathL {α : Type} (rc : Rect) (d : α) :
    List (Rect × Node α) → Nat → List Nat → List (Rect × Node α)
  | [], _, _ => []
  | e :: t, 0, p => (e.1, addAtPath rc d e.2 p) :: t
  | e :: t, i + 1, p => e :: addAtPathL rc d t i p
end

mutual
/-- Entry list of the leaf at the given path (`leaf.entries` reads,
lines 189/262/266); `[]` when the path does not lead to a leaf. -/
def entriesAtPath {α : Type} : Node α → List Nat → List (Rect × α)
  | .leaf es, [] => es
  | .node es, i :: p => entriesAtPathL es i p
  | _, _ => []
/-- List walker for `entriesAtPath`. -/
def entriesAtPathL {α : Type} : List (Rect × Node α) → Nat → List Nat → List (Rect × α)
  | [], _, _ => []
  | e :: _, 0, p => entriesAtPath e.2 p
  | _ :: t, i + 1, p => entriesAtPathL t i p
end

mutual
/-- Replace the entry list of the leaf at the given path
(`node.entries = keep`, line 296). -/
def setEntriesAtPath {α : Type} (ks : List (Rect × α)) : Node α → List Nat → Node α
  | .leaf _, [] => .leaf ks
  | .node es, i :: p => .node (setEntriesAtPathL ks es i p)
  | n, _ => n
/-- List walker for `setEntriesAtPath`. -/
def setEntriesAtPathL {α : Type} (ks : List (Rect × α)) :
    List (Rect × Node α) → Nat → List Nat → List (Rect × Node α)
  | [], _, _ => []
  | e :: t, 0, p => (e.1, setEntriesAtPath ks e.2 p) :: t
  | e :: t, i + 1, p => e :: setEntriesAtPathL ks t i p
end

mutual
/-- `RTree._bubble_up_mbr` (lines 238-246) for the node at the given
path: walking up from that node, each ancestor's entry rectangle for the
on-path child is replaced by that child's freshly recomputed `mbr` (the
bottom-up loop is expressed as a top-down recursion; the innermost
update happens first in both).  With path `[]` the node is the root and
has no parent, so nothing changes. -/
def bubbleUpAt {α : Type} : Node α → List Nat → Node α
  | n, [] => n
  | .node es, i :: p => .node (bubbleUpAtL es i p)
  | n, _ => n
/-- List walker for `bubbleUpAt`: rewrites entry `i` with the updated
child's `mbr` (line 244). -/
def bubbleUpAtL {α : Type} : List (Rect × Node α) → Nat → List Nat → List (Rect × Node α)
  | [], _, _ => []
  | e :: t, 0, p =>
    let c := bubbleUpAt e.2 p
    (c.mbr, c) :: t
  | e :: t, i + 1, p => e :: bubbleUpAtL t i p
end

/-- Retained-half size of the linear split: `half = max(1, len // 2)`
(line 198). -/
def splitHalf (n : Nat) : Nat := max 1 (n / 2)

/-- `RTree.split_node` (lines 193-213): cut the entry list at
`splitHalf`; the original node object keeps the first part, a new node
of the same leaf/internal kind receives the rest.  The parent-pointer
fixes of lines 207-211 are modelled by the tracked-path adjustments in
`splitTrk`. -/
def splitNodeHalves {α : Type} : Node α → Node α × Node α
  | .leaf es => (.leaf (es.take (splitHalf es.length)), .leaf (es.drop (splitHalf es.length)))
  | .node es => (.node (es.take (splitHalf es.length)), .node (es.drop (splitHalf es.length)))

/-- Result of `adjust_after_split` below a given node: either the
adjusted subtree, or the two halves of a split that the caller still has
to place (`node` keeps the first half, the second half is the freshly
created sibling).  The last component tracks the position of a marked
node (modelling the parent chain of the leaf that the R*-variant holds
on to across reinsertions): for `one` a path inside the subtree, for
`two` a side (false = first half) and a path inside that half. -/
inductive AdjRes (α : Type) where
  | one (n : Node α) (t : Option (List Nat))
  | two (l r : Node α) (t : Option (Bool × List Nat))

/-- Tracked-path adjustment for a split at index `half`: a tracked node
that is the split node itself stays with the first half (the original
object, line 203); a tracked child at index `j` stays at `j` in the
first half when `j < half` and moves to index `j - half` of the sibling
otherwise (the slicing of lines 202-204 together with the
parent-pointer fixes of lines 207-211). -/
def splitTrk (half : Nat) : Option (List Nat) → Option (Bool × List Nat)
  | some [] => some (false, [])
  | some (j :: p) => if j < half then some (false, j :: p) else some (true, (j - half) :: p)
  | none => none

/-- Split a node and adjust the tracked path accordingly
(`split_node`, lines 193-213). -/
def splitWithTrk {α : Type} (n : Node α) (t : Option (List Nat)) : AdjRes α :=
  let res := splitNodeHalves n
  .two res.1 res.2 (splitTrk (splitHalf n.entriesLen) t)

/-- Restriction of a tracked path to the i-th child's subtree. -/
def subTrk (t : Option (List Nat)) (i : Nat) : Option (List Nat) :=
  match t with
  | some (j :: q) => if j = i then some q else none
  | _ => none

/-- Tracked path after the i-th child was adjusted without splitting. -/
def rejoinOne (t : Option (List Nat)) (i : Nat) (tc : Option (List Nat)) :
    Option (List Nat) :=
  match t with
  | some [] => some []
  | some (j :: q) => if j = i then tc.map (fun q2 => i :: q2) else some (j :: q)
  | none => none

/-- Tracked path after the i-th child split into two halves: the first
half stays at index `i`, the sibling is appended at index `len` (the
`parent.add` of line 233). -/
def rejoinTwo (t : Option (List Nat)) (i len : Nat)
    (tc : Option (Bool × List Nat)) : Option (List Nat) :=
  match t with
  | some [] => some []
  | some (j :: q) =>
    if j = i then
      match tc with
      | some (false, q2) => some (i :: q2)
      | some (true, q2) => some (len :: q2)
      | none => none
    else some (j :: q)
  | none => none

/-- Replace the i-th child, keeping the rectangle stored for it in the
parent unchanged (as the source does: `adjust_after_split` never
refreshes the parent's rectangle for the node that kept the first
half). -/
def replaceChild {α : Type} : List (Rect × Node α) → Nat → Node α → List (Rect × Node α)
  | [], _, _ => []
  | e :: t, 0, c => (e.1, c) :: t
  | e :: t, i + 1, c => e :: replaceChild t i c

mutual
/-- `RTree.adjust_after_split` (lines 215-235) relative to the subtree
rooted at the current node, for an overflowing node at the given path:
at path `[]` the overflowing node itself is split once (line 221);
otherwise the result of adjusting below the i-th child is merged: a
split child contributes the entry `(new_node.mbr(), new_node)` appended
to this node's entries (line 233), and if this node now overflows it is
split in turn (lines 234-235).  The root case of lines 223-230 is
handled by the caller `adjustAfterSplitTrk`. -/
def adjustAtTrk {α : Type} (maxE : Nat) :
    Node α → List Nat → Option (List Nat) → AdjRes α
  | n, [], t => splitWithTrk n t
  | .node es, i :: p, t =>
    match adjustAtTrkL maxE es i p (subTrk t i) with
    | none => .one (.node es) t
    | some (.one c tc) => .one (.node (replaceChild es i c)) (rejoinOne t i tc)
    | some (.two l r tc) =>
      let es2 := replaceChild es i l ++ [(r.mbr, r)]
      let t2 := rejoinTwo t i es.length tc
      if maxE < es2.length then splitWithTrk (.node es2) t2
      else .one (.node es2) t2
  | n, _, t => .one n t
/-- List walker locating the i-th child for `adjustAtTrk`; `none` on an
out-of-range index (never happens on valid paths). -/
def adjustAtTrkL {α : Type} (maxE : Nat) :
    List (Rect × Node α) → Nat → List Nat → Option (List Nat) → Option (AdjRes α)
  | [], _, _, _ => none
  | e :: _, 0, p, sub => some (adjustAtTrk maxE e.2 p sub)
  | _ :: t, i + 1, p, sub => adjustAtTrkL maxE t i p sub
end

/-- `adjust_after_split` on the whole tree (lines 215-235): when the
split bubbles all the way to the root, a new internal root with the two
halves and their freshly computed rectangles is created
(lines 223-230). -/
def adjustAfterSplitTrk {α : Type} (maxE : Nat) (t : Node α) (q : List Nat)
    (pt : Option (List Nat)) : Node α × Option (List Nat) :=
  match adjustAtTrk maxE t q pt with
  | .one n t2 => (n, t2)
  | .two l r t2 =>
    (.node [(l.mbr, l), (r.mbr, r)], t2.map (fun bp => (cond bp.1 1 0) :: bp.2))

/-- State of a base `RTree` (lines 142-146): capacity bound, root node,
and the node-visit instrumentation counter. -/
structure RTreeState (α : Type) where
  max_entries : Nat
  root : Node α
  node_visits : Nat
deriving Repr

/-- `RTree.__init__` (lines 143-146): the root starts as an empty leaf
and the visit counter at zero.  No validation is performed. -/
def RTree.init (α : Type) (maxE : Nat) : RTreeState α :=
  ⟨maxE, .leaf [], 0⟩

/-- Configuration error named by the external interface of the spec;
the source never raises it. -/
inductive ConfigError where
  | invalidConfiguration
deriving DecidableEq, Repr

/-- `RTree.__init__` with the exception channel of a Python constructor
made explicit: the body of lines 143-146 contains no validation and no
raise, so construction succeeds for every capacity. -/
def RTree.initE (α : Type) (maxE : Nat) : Except ConfigError (RTreeState α) :=
  .ok ⟨maxE, .leaf [], 0⟩

/-- `RTree._reset` (lines 149-150). -/
def RTree.resetVisits {α : Type} (s : RTreeState α) : RTreeState α :=
  { s with node_visits := 0 }

/-- `RTree.range_query` called on the root (lines 156-169): returns the
collected payloads and the state with the visit counter increased by
the number of nodes entered. -/
def RTree.range_query {α : Type} (w : Rect) (s : RTreeState α) :
    List α × RTreeState α :=
  let r := rangeQueryN w s.root
  (r.1, { s with node_visits := s.node_visits + r.2 })

/-- One base insertion into a tree, with a tracked path threaded through
(`RTree.insert`, lines 186-190): locate the target leaf with
`choose_leaf`, append the entry, and run `adjust_after_split` when the
leaf now exceeds the capacity.  The base insert performs no
bounding-rectangle refresh in the non-overflow case. -/
def baseInsertTrk {α : Type} (maxE : Nat) (rc : Rect) (d : α)
    (t : Node α) (pt : Option (List Nat)) : Node α × Option (List Nat) :=
  let q := leafPath rc t
  let t1 := addAtPath rc d t q
  if maxE < (entriesAtPath t1 q).length then adjustAfterSplitTrk maxE t1 q pt
  else (t1, pt)

/-- `RTree.insert` (lines 186-190). -/
def RTree.insert {α : Type} (rc : Rect) (d : α) (s : RTreeState α) : RTreeState α :=
  { s with root := (baseInsertTrk s.max_entries rc d s.root none).1 }

/-- State of an `RStarTree` (lines 253-256): the base state plus the
reinsertion ratio. -/
structure RStarState (α : Type) where
  max_entries : Nat
  reinsertion_ratio : ℚ
  root : Node α
  node_visits : Nat
deriving Repr

/-- `RStarTree.__init__` (lines 254-256): again no validation of the
capacity or of the ratio. -/
def RStarTree.init (α : Type) (maxE : Nat) (ratio : ℚ) : RStarState α :=
  ⟨maxE, ratio, .leaf [], 0⟩

/-- `RStarTree.__init__` with the constructor's exception channel made
explicit: the body (lines 254-256) contains no raise. -/
def RStarTree.initE (α : Type) (maxE : Nat) (ratio : ℚ) :
    Except ConfigError (RStarState α) :=
  .ok ⟨maxE, ratio, .leaf [], 0⟩

/-- `range_query` on the R*-tree (inherited unchanged from `RTree`). -/
def RStarTree.range_query {α : Type} (w : Rect) (s : RStarState α) :
    List α × RStarState α :=
  let r := rangeQueryN w s.root
  (r.1, { s with node_visits := s.node_visits + r.2 })

/-- `RStarTree._reset` (inherited from `RTree`, lines 149-150). -/
def RStarTree.resetVisits {α : Type} (s : RStarState α) : RStarState α :=
  { s with node_visits := 0 }

/-- Python 3 `round` to an integer on an exact rational: round half to
even (`int(round(...))`, line 291). -/
def pythonRound (x : ℚ) : ℤ :=
  let f := ⌊x⌋
  let frac := x - f
  if frac < 1 / 2 then f
  else if 1 / 2 < frac then f + 1
  else if f % 2 = 0 then f else f + 1

/-- Squared Euclidean distance from the center of a rectangle to the
point `c` (the sort key of lines 286-287). -/
def distKey (c : ℚ × ℚ) (r : Rect) : ℚ :=
  ((r.x1 + r.x2) / 2 - c.1) ^ 2 + ((r.y1 + r.y2) / 2 - c.2) ^ 2

/-- Comparator placing entries with larger center distance first
(`sorted(..., reverse=True)`, lines 284-289); on ties the earlier entry
stays first, matching the stability of Python's sort. -/
def farther {α : Type} (c : ℚ × ℚ) (a b : Nat × (Rect × α)) : Prop :=
  distKey c b.2.1 ≤ distKey c a.2.1

instance {α : Type} (c : ℚ × ℚ) : DecidableRel (farther (α := α) c) :=
  fun a b => inferInstanceAs (Decidable (distKey c b.2.1 ≤ distKey c a.2.1))

instance {α : Type} (c : ℚ × ℚ) : IsTotal (Nat × Rect × α) (farther c) :=
  ⟨fun a b => le_total (distKey c b.2.1) (distKey c a.2.1)⟩

instance {α : Type} (c : ℚ × ℚ) : IsTrans (Nat × Rect × α) (farther c) :=
  ⟨fun _ _ _ hab hbc => le_trans hbc hab⟩

/-- Number of entries evicted by forced reinsertion
(`k = max(1, int(round(ratio * len)))` clamped by `min(k, len - 1)`,
lines 291-292). -/
def reinsertCount (ratio : ℚ) (n : Nat) : Nat :=
  (min (max 1 (pythonRound (ratio * n))) ((n : ℤ) - 1)).toNat

/-- Center of the bounding rectangle of an entry list
(`m = node.mbr()`, `cx`, `cy`, lines 280-282). -/
def entriesCenter {α : Type} (es : List (Rect × α)) : ℚ × ℚ :=
  let m := rectsMBR (es.map Prod.fst)
  ((m.x1 + m.x2) / 2, (m.y1 + m.y2) / 2)

/-- The `ranked` list of `_forced_reinsert_once` (lines 284-289):
entries sorted by descending squared center distance from the node's
centroid; Python's `sorted` is stable, which the insertion sort with a
non-strict comparator reproduces.  Entries are indexed with `enum`
because Python distinguishes entry tuples by the object identity of
their `Rect`, and each entry holds its own object. -/
def rankedEntries {α : Type} (es : List (Rect × α)) : List (Nat × Rect × α) :=
  List.insertionSort (farther (entriesCenter es)) es.enum

/-- Eviction step of `_forced_reinsert_once` (lines 280-296) on the
entry list of the overflowing node: evict the first `k` of the ranking,
keep the others in their original order (`keep = [e for e in entries if
e not in to_reinsert]`, line 295, with tuple identity modelled by the
`enum` index).  Returns `(keep, to_reinsert)`. -/
def selectReinsert {α : Type} (ratio : ℚ) (es : List (Rect × α)) :
    List (Rect × α) × List (Rect × α) :=
  let k := reinsertCount ratio es.length
  let evicted := (rankedEntries es).take k
  let keep := (es.enum.filter (fun ie => !(evicted.map Prod.fst).contains ie.1)).map Prod.snd
  (keep, evicted.map Prod.snd)

/-- `entriesAtPath` through an optional tracked path. -/
def entriesAtPathO {α : Type} (t : Node α) : Option (List Nat) → List (Rect × α)
  | some p => entriesAtPath t p
  | none => []

/-- `bubbleUpAt` through an optional tracked path. -/
def bubbleUpAtO {α : Type} (t : Node α) : Option (List Nat) → Node α
  | some p => bubbleUpAt t p
  | none => t

/-- `RStarTree._forced_reinsert_once` (lines 271-301) on the node at
path `p`: no-op unless the node overflows (line 277); otherwise replace
the node's entries by `keep`, reinsert each evicted entry with the base
insertion algorithm from the root (line 299, `super().insert`), while
the position of the original node is tracked across the splits those
insertions may cause, and finally refresh the bounding rectangles from
the node up to the root (line 301). -/
def forcedReinsertOnce {α : Type} (maxE : Nat) (ratio : ℚ) (t : Node α)
    (p : List Nat) : Node α × Option (List Nat) :=
  let es := entriesAtPath t p
  if es.length ≤ maxE then (t, some p)
  else
    let sel := selectReinsert ratio es
    let t2 := setEntriesAtPath sel.1 t p
    let tp := sel.2.foldl (fun acc e => baseInsertTrk maxE e.1 e.2 acc.1 acc.2) (t2, some p)
    (bubbleUpAtO tp.1 tp.2, tp.2)

/-- `adjustAfterSplitTrk` through an optional tracked path (the
defensive split of line 267; tracking beyond it is not needed). -/
def adjustAfterSplitO {α : Type} (maxE : Nat) (t : Node α) :
    Option (List Nat) → Node α
  | some p => (adjustAfterSplitTrk maxE t p none).1
  | none => t

/-- `RStarTree.insert` (lines 258-269): locate the leaf, append the
entry; on overflow run the single forced-reinsertion pass; if the leaf
is still over capacity split it (line 267, defensively unreachable),
otherwise refresh the bounding rectangles up from the leaf
(line 269). -/
def RStarTree.insert {α : Type} (rc : Rect) (d : α) (s : RStarState α) :
    RStarState α :=
  let q := leafPath rc s.root
  let t1 := addAtPath rc d s.root q
  let tp :=
    if s.max_entries < (entriesAtPath t1 q).length
    then forcedReinsertOnce s.max_entries s.reinsertion_ratio t1 q
    else (t1, some q)
  if s.max_entries < (entriesAtPathO tp.1 tp.2).length
  then { s with root := adjustAfterSplitO s.max_entries tp.1 tp.2 }
  else { s with root := bubbleUpAtO tp.1 tp.2 }

/-- `RStarTree.insert` instrumented with the number of forced
reinsertion passes performed during the call: the body is that of
`RStarTree.insert`, with `1` recorded when the overflow branch of
line 263 runs `_forced_reinsert_once` (whose reinsertion loop only ever
calls the base `RTree.insert` algorithm, `super().insert`, line 299,
which contains no forced-reinsertion call). -/
def RStarTree.insertPasses {α : Type} (rc : Rect) (d : α) (s : RStarState α) :
    RStarState α × Nat :=
  let q := leafPath rc s.root
  let t1 := addAtPath rc d s.root q
  let tpn :=
    if s.max_entries < (entriesAtPath t1 q).length
    then (forcedReinsertOnce s.max_entries s.reinsertion_ratio t1 q, 1)
    else ((t1, some q), 0)
  let tp := tpn.1
  if s.max_entries < (entriesAtPathO tp.1 tp.2).length
  then ({ s with root := adjustAfterSplitO s.max_entries tp.1 tp.2 }, tpn.2)
  else ({ s with root := bubbleUpAtO tp.1 tp.2 }, tpn.2)

mutual
/-- All leaf entries stored in a subtree, in left-to-right order. -/
def leafList {α : Type} : Node α → List (Rect × α)
  | .leaf es => es
  | .node es => leafListL es
/-- List walker for `leafList`. -/
def leafListL {α : Type} : List (Rect × Node α) → List (Rect × α)
  | [] => []
  | e :: t => leafList e.2 ++ leafListL t
end

mutual
/-- Capacity predicate: every node of the subtree holds at most `m`
entries. -/
def capOK {α : Type} (m : Nat) : Node α → Bool
  | .leaf es => decide (es.length ≤ m)
  | .node es => decide (es.length ≤ m) && capOKL m es
/-- List walker for `capOK`. -/
def capOKL {α : Type} (m : Nat) : List (Rect × Node α) → Bool
  | [] => true
  | e :: t => capOK m e.2 && capOKL m t
end

mutual
/-- Structural well-formedness used by the insertion algorithms: every
internal node of the subtree holds at least one entry (so `choose_leaf`
always finds a child to descend into). -/
def noEmptyInt {α : Type} : Node α → Bool
  | .leaf _ => true
  | .node es => !es.isEmpty && noEmptyIntL es
/-- List walker for `noEmptyInt`. -/
def noEmptyIntL {α : Type} : List (Rect × Node α) → Bool
  | [] => true
  | e :: t => noEmptyInt e.2 && noEmptyIntL t
end

mutual
/-- Exactness of the bounding rectangles: every internal entry's stored
rectangle equals the enlargement-fold (`mbr`) of its child's current
entries. -/
def mbrsExact {α : Type} : Node α → Bool
  | .leaf _ => true
  | .node es => mbrsExactL es
/-- List walker for `mbrsExact`. -/
def mbrsExactL {α : Type} : List (Rect × Node α) → Bool
  | [] => true
  | e :: t => decide (e.1 = e.2.mbr) && mbrsExact e.2 && mbrsExactL t
end

/-- `a` contains `b` as a region (componentwise bound inclusion). -/
def containsRect (a b : Rect) : Bool :=
  decide (a.x1 ≤ b.x1) && decide (a.y1 ≤ b.y1) &&
  decide (b.x2 ≤ a.x2) && decide (b.y2 ≤ a.y2)

mutual
/-- Weak bounding soundness: every internal entry's stored rectangle
contains the `mbr` of its child (no internal rectangle under-bounds its
subtree's top-level entries). -/
def mbrsCover {α : Type} : Node α → Bool
  | .leaf _ => true
  | .node es => mbrsCoverL es
/-- List walker for `mbrsCover`. -/
def mbrsCoverL {α : Type} : List (Rect × Node α) → Bool
  | [] => true
  | e :: t => containsRect e.1 e.2.mbr && mbrsCover e.2 && mbrsCoverL t
end

mutual
/-- Specification-side count of the nodes entered by the `range_query`
traversal for window `w`: the node itself, plus, for an internal node,
the visited nodes of every child whose stored rectangle intersects the
window. -/
def visitedNodes {α : Type} (w : Rect) : Node α → Nat
  | .leaf _ => 1
  | .node es => visitedNodesL w es + 1
/-- List walker for `visitedNodes`. -/
def visitedNodesL {α : Type} (w : Rect) : List (Rect × Node α) → Nat
  | [] => 0
  | e :: t =>
    (if w.intersects e.1 then visitedNodes w e.2 else 0) + visitedNodesL w t
end

/-- A path is a valid leaf path in a tree: it follows existing child
indices and ends at a leaf. -/
def PathOK {α : Type} : List Nat → Node α → Prop
  | [], .leaf _ => True
  | i :: p, .node es => ∃ e, es.get? i = some e ∧ PathOK p e.2
  | _, _ => False

/-- Fold a list of insertions over a base tree. -/
def applyBase {α : Type} (s : RTreeState α) (ops : List (Rect × α)) : RTreeState α :=
  ops.foldl (fun acc e => RTree.insert e.1 e.2 acc) s

/-- Fold a list of insertions over an R*-tree. -/
def applyStar {α : Type} (s : RStarState α) (ops : List (Rect × α)) : RStarState α :=
  ops.foldl (fun acc e => RStarTree.insert e.1 e.2 acc) s

/-- Degenerate point rectangle (`make_point_rect(x, y)`). -/
def ptRect (x y : ℚ) : Rect := Rect.make x y x y

/-- Concrete insertion sequence exhibiting the missing
bounding-rectangle refresh of the base `RTree.insert`: four point
rectangles with payloads 0..3. -/
def opsA : List (Rect × Nat) :=
  [(ptRect 0 0, 0), (ptRect 1 1, 1), (ptRect 2 2, 2), (ptRect 0 5, 3)]

/-- Base tree with capacity 2 after inserting `opsA`: the third insert
splits the root; the fourth lands in the first leaf without overflow,
and no ancestor rectangle is refreshed. -/
def baseA : RTreeState Nat := applyBase (RTree.init Nat 2) opsA

/-- Query window equal to the last inserted point rectangle. -/
def winA : Rect := ptRect 0 5

/-- A leaf with three entries, as produced by an insertion that
overflows a node of capacity 2. -/
def leafThree : Node Nat :=
  Node.leaf [(ptRect 0 0, 0), (ptRect 1 1, 1), (ptRect 2 2, 2)]

/-- Subtrees below a node are capacity-correct (the node's own entry
count is not constrained). -/
def childrenCapOK {α : Type} (m : Nat) : Node α → Bool
  | .leaf _ => true
  | .node es => capOKL m es

/-- Capacity predicate with one transiently overflowing node: every
node of the tree holds at most `m` entries, except that the node at the
given path may hold up to `m + 1` (the state right after `leaf.add` and
before `adjust_after_split`). -/
def capOKx {α : Type} (m : Nat) : List Nat → Node α → Prop
  | [], n => n.entriesLen ≤ m + 1 ∧ childrenCapOK m n = true
  | i :: p, .node es =>
    es.length ≤ m ∧
    ∀ j e, es.get? j = some e →
      (j = i → capOKx m p e.2) ∧ (j ≠ i → capOK m e.2 = true)
  | _ :: _, .leaf _ => False

/-- Entry count of the node at a path (0 on an invalid path). -/
def nodeLenAt {α : Type} : List Nat → Node α → Nat
  | [], n => n.entriesLen
  | i :: p, .node es =>
    match es.get? i with
    | some e => nodeLenAt p e.2
    | none => 0
  | _ :: _, .leaf _ => 0

/-- Multiset of the leaf entries stored in a subtree. -/
def leafMS {α : Type} (t : Node α) : Multiset (Rect × α) :=
  (leafList t : Multiset (Rect × α))

mutual
/-- The node-visit count returned by the query traversal equals the
specification-side count of entered nodes. -/
theorem rangeQueryN_visits {α : Type} (w : Rect) :
    (n : Node α) → (rangeQueryN w n).2 = visitedNodes w n
  | .leaf _ => rfl
  | .node es => by
    have ih := rangeQueryL_visits w es
    simp only [rangeQueryN, visitedNodes]
    omega
/-- List version of `rangeQueryN_visits`. -/
theorem rangeQueryL_visits {α : Type} (w : Rect) :
    (l : List (Rect × Node α)) → (rangeQueryL w l).2 = visitedNodesL w l
  | [] => rfl
  | e :: t => by
    have ihn := rangeQueryN_visits w e.2
    have iht := rangeQueryL_visits w t
    simp only [rangeQueryL, visitedNodesL]
    split
    · simp [ihn, iht]
    · simp [iht]
end

/-- C1: for every index, every insertion sequence and every window,
a payload appears in `range_query(w)` iff its stored rectangle
intersects `w`.  This fails on the code: the base `RTree.insert` never
refreshes ancestor bounding rectangles when the target leaf does not
overflow (`_bubble_up_mbr` is only called by the R*-variant), so an
inserted entry can be missed.  Concretely, with capacity 2, after
inserting the points (0,0), (1,1), (2,2), (0,5) with payloads 0..3, the
pair ((0,5), 3) is stored in a leaf, its rectangle intersects the window
(0,5)-(0,5), yet the query returns the empty list. -/
theorem c1_query_misses_stored_entry :
    (ptRect 0 5, 3) ∈ leafList baseA.root ∧
    Rect.intersects (ptRect 0 5) winA = true ∧
    (RTree.range_query winA baseA).1 = [] :=
  ⟨by decide, by decide, by decide⟩

/-- C2: every internal entry rectangle exactly equals the
enlargement-fold of its child's entries, and never under-bounds its
subtree.  Both parts fail on the code for the same state as in C1: the
root's entry rectangle for its first leaf is the stale (0,0)-(0,0)
while that leaf now also holds the point (0,5) — the stored rectangle
neither equals the child's fold nor contains it. -/
theorem c2_internal_rect_stale_and_underbounds :
    mbrsExact baseA.root = false ∧ mbrsCover baseA.root = false :=
  ⟨by decide, by decide⟩

/-- C4 counterexample: splitting an overflowing 3-entry node (capacity
2) retains only `max(1, 3 // 2) = 1` entry in the original node, not
the `⌈3/2⌉ = 2` entries the claim states. -/
theorem c4_split_cut_is_floor_counterexample :
    (splitNodeHalves leafThree).1.leafEntries = [(ptRect 0 0, 0)] ∧
    (splitNodeHalves leafThree).1.leafEntries ≠
      leafThree.leafEntries.take ((leafThree.entriesLen + 1) / 2) :=
  ⟨by decide, by decide⟩

/-- C4 (amended): the linear split cuts the entry list at the midpoint
index `max(1, ⌊n/2⌋)`; for any node with at least two entries this is
`⌊n/2⌋`: the first `⌊n/2⌋` entries stay in the original node and the
remaining `n − ⌊n/2⌋` move, in order, into a new sibling of the same
leaf/internal kind. -/
theorem c4_split_cut_is_floor {α : Type} (es : List (Rect × α))
    (fs : List (Rect × Node α)) (h1 : 2 ≤ es.length) (h2 : 2 ≤ fs.length) :
    splitNodeHalves (Node.leaf es) =
      (Node.leaf (es.take (es.length / 2)), Node.leaf (es.drop (es.length / 2))) ∧
    splitNodeHalves (Node.node fs) =
      (Node.node (fs.take (fs.length / 2)), Node.node (fs.drop (fs.length / 2))) := by
  have e1 : splitHalf es.length = es.length / 2 := by
    simp only [splitHalf]; omega
  have e2 : splitHalf fs.length = fs.length / 2 := by
    simp only [splitHalf]; omega
  constructor
  · simp only [splitNodeHalves, e1]
  · simp only [splitNodeHalves, e2]

/-- Witness for `c4_split_cut_is_floor` at a concrete three-entry leaf
and internal node. -/
theorem c4_split_cut_is_floor_witness :
    2 ≤ ([(ptRect 0 0, (0 : Nat)), (ptRect 1 1, 1), (ptRect 2 2, 2)] :
        List (Rect × Nat)).length ∧
    2 ≤ ([(ptRect 0 0, Node.leaf [(ptRect 0 0, (0 : Nat))]),
          (ptRect 1 1, Node.leaf [(ptRect 1 1, (1 : Nat))])] :
        List (Rect × Node Nat)).length ∧
    splitNodeHalves (Node.leaf [(ptRect 0 0, (0 : Nat)), (ptRect 1 1, 1), (ptRect 2 2, 2)]) =
      (Node.leaf [(ptRect 0 0, 0)], Node.leaf [(ptRect 1 1, 1), (ptRect 2 2, 2)]) := by
  refine ⟨by decide, by decide, ?_⟩
  have h := c4_split_cut_is_floor
    [(ptRect 0 0, (0 : Nat)), (ptRect 1 1, 1), (ptRect 2 2, 2)]
    [(ptRect 0 0, Node.leaf [(ptRect 0 0, (0 : Nat))]),
     (ptRect 1 1, Node.leaf [(ptRect 1 1, (1 : Nat))])]
    (by decide) (by decide)
  exact h.1

/-- C6: forced reinsertion is single-pass per overflow event: the
instrumented insert agrees with `RStarTree.insert` and performs at most
one forced-reinsertion pass per call; the entries evicted by that pass
are reinserted by the base algorithm (`baseInsertTrk`, the model of
`super().insert`), which contains no forced-reinsertion call, and all
the functions involved are total, so every insert terminates. -/
theorem c6_single_reinsertion_pass {α : Type} (rc : Rect) (d : α)
    (s : RStarState α) :
    (RStarTree.insertPasses rc d s).1 = RStarTree.insert rc d s ∧
    (RStarTree.insertPasses rc d s).2 ≤ 1 := by
  unfold RStarTree.insertPasses RStarTree.insert
  dsimp only
  constructor
  · split <;> split <;> rfl
  · split <;> split <;> simp

/-- C7 counterexample: construction does not fail for capacity 1 (< 2),
nor for a reinsertion ratio of 2 (outside (0,1)): both constructors
return the normally initialized index. -/
theorem c7_no_validation_counterexample :
    RTree.initE Nat 1 = .ok (RTree.init Nat 1) ∧
    RStarTree.initE Nat 1 2 = .ok (RStarTree.init Nat 1 2) :=
  ⟨rfl, rfl⟩

/-- C7 (amended): construction never fails: neither constructor
validates anything, so every capacity (including < 2) and every ratio
(including those outside (0,1)) is accepted and yields the normally
initialized index with an empty leaf root and a zeroed visit
counter. -/
theorem c7_construction_never_fails (α : Type) (maxE : Nat) (ratio : ℚ) :
    RTree.initE α maxE = .ok ⟨maxE, .leaf [], 0⟩ ∧
    RStarTree.initE α maxE ratio = .ok ⟨maxE, ratio, .leaf [], 0⟩ :=
  ⟨rfl, rfl⟩

/-- C8: the rectangle-construction convenience accepts exactly the
three documented argument shapes — two coordinates (degenerate point
rectangle), a point plus a size (the square [x, x+s] × [y, y+s]), or
four coordinates taken as two opposite corners in either order — and
fails with the arity error for every other argument count. -/
theorem c8_makePointRect_arity :
    (∀ x y : ℚ, makePointRect [x, y] = .ok (Rect.make x y x y)) ∧
    (∀ x y s : ℚ, makePointRect [x, y, s] = .ok (Rect.make x y (x + s) (y + s))) ∧
    (∀ a b c d : ℚ, makePointRect [a, b, c, d] = .ok (Rect.make a b c d) ∧
      makePointRect [a, b, c, d] = makePointRect [c, d, a, b]) ∧
    (∀ args : List ℚ, args.length ≠ 2 → args.length ≠ 3 → args.length ≠ 4 →
      makePointRect args = .error (.wrongArgCount args.length)) := by
  refine ⟨fun x y => rfl, fun x y s => rfl, fun a b c d => ⟨rfl, ?_⟩, ?_⟩
  · simp only [makePointRect, Rect.make]
    rw [min_comm a c, min_comm b d, max_comm a c, max_comm b d]
  · intro args h2 h3 h4
    match args with
    | [] => rfl
    | [_] => rfl
    | [_, _] => exact absurd rfl h2
    | [_, _, _] => exact absurd rfl h3
    | [_, _, _, _] => exact absurd rfl h4
    | _ :: _ :: _ :: _ :: _ :: _ => rfl

/-- Witness for `c8_makePointRect_arity`: five arguments are rejected
with the arity error. -/
theorem c8_makePointRect_arity_witness :
    ([(1 : ℚ), 2, 3, 4, 5] : List ℚ).length ≠ 2 ∧
    ([(1 : ℚ), 2, 3, 4, 5] : List ℚ).length ≠ 3 ∧
    ([(1 : ℚ), 2, 3, 4, 5] : List ℚ).length ≠ 4 ∧
    makePointRect [1, 2, 3, 4, 5] = .error (.wrongArgCount 5) :=
  ⟨by decide, by decide, by decide,
    c8_makePointRect_arity.2.2.2 [1, 2, 3, 4, 5] (by decide) (by decide) (by decide)⟩

/-- C9: the node-visit counter is modified only by query traversal and
the explicit reset: each `range_query` call (on either index) adds
exactly the number of nodes entered during that traversal, root
included; `insert` (on either index) leaves the counter unchanged;
without a reset the counter accumulates over consecutive queries; and
the explicit reset zeroes it. -/
theorem c9_visit_counter_frame {α : Type} :
    (∀ (s : RTreeState α) (w : Rect),
      (RTree.range_query w s).2.node_visits = s.node_visits + visitedNodes w s.root) ∧
    (∀ (s : RStarState α) (w : Rect),
      (RStarTree.range_query w s).2.node_visits = s.node_visits + visitedNodes w s.root) ∧
    (∀ (s : RTreeState α) (rc : Rect) (d : α),
      (RTree.insert rc d s).node_visits = s.node_visits) ∧
    (∀ (s : RStarState α) (rc : Rect) (d : α),
      (RStarTree.insert rc d s).node_visits = s.node_visits) ∧
    (∀ (s : RTreeState α) (w1 w2 : Rect),
      (RTree.range_query w2 (RTree.range_query w1 s).2).2.node_visits =
        s.node_visits + visitedNodes w1 s.root + visitedNodes w2 s.root) ∧
    (∀ s : RTreeState α, (RTree.resetVisits s).node_visits = 0) := by
  refine ⟨?_, ?_, ?_, ?_, ?_, ?_⟩
  · intro s w
    simp [RTree.range_query, rangeQueryN_visits]
  · intro s w
    simp [RStarTree.range_query, rangeQueryN_visits]
  · intro s rc d
    rfl
  · intro s rc d
    unfold RStarTree.insert
    dsimp only
    split <;> split <;> rfl
  · intro s w1 w2
    simp [RTree.range_query, rangeQueryN_visits]
  · intro s
    rfl

/-- The ranking of `_forced_reinsert_once` is a permutation of the
indexed entry list. -/
theorem rankedEntries_perm {α : Type} (es : List (Rect × α)) :
    List.Perm (rankedEntries es) es.enum :=
  List.perm_insertionSort _ _

/-- The ranking is sorted by descending center distance. -/
theorem rankedEntries_sorted {α : Type} (es : List (Rect × α)) :
    List.Sorted (farther (entriesCenter es)) (rankedEntries es) :=
  List.sorted_insertionSort _ _

/-- The ranking carries pairwise-distinct entry indices. -/
theorem rankedEntries_fst_nodup {α : Type} (es : List (Rect × α)) :
    ((rankedEntries es).map Prod.fst).Nodup :=
  (((rankedEntries_perm es).map Prod.fst).nodup_iff).mpr (List.nodup_enum_map_fst es)

/-- The kept entries of the eviction step are a permutation of the part
of the ranking that survives `take k` — the filter of line 295 removes
exactly the evicted entries. -/
theorem selectKeep_perm {α : Type} (es : List (Rect × α)) (k : Nat) :
    List.Perm
      (es.enum.filter
        (fun ie => !(((rankedEntries es).take k).map Prod.fst).contains ie.1))
      ((rankedEntries es).drop k) := by
  have hperm := rankedEntries_perm es
  have hnodfst := rankedEntries_fst_nodup es
  have hnod : (rankedEntries es).Nodup := hnodfst.of_map
  have hnodenum : es.enum.Nodup := hperm.nodup_iff.mp hnod
  have hsplit : (rankedEntries es).take k ++ (rankedEntries es).drop k = rankedEntries es :=
    List.take_append_drop k (rankedEntries es)
  have hdisj : ∀ a ∈ (rankedEntries es).take k, ∀ b ∈ (rankedEntries es).drop k,
      a.1 ≠ b.1 := by
    intro a ha b hb
    have : (((rankedEntries es).take k).map Prod.fst ++
        ((rankedEntries es).drop k).map Prod.fst).Nodup := by
      rw [← List.map_append, hsplit]; exact hnodfst
    have hd := (List.nodup_append.mp this).2.2
    intro heq
    apply hd (List.mem_map_of_mem Prod.fst ha)
    rw [heq]
    exact List.mem_map_of_mem Prod.fst hb
  refine (List.perm_ext_iff_of_nodup (hnodenum.filter _)
    (hnod.sublist (List.drop_sublist k _))).mpr ?_
  intro a
  simp only [List.mem_filter, Bool.not_eq_eq_eq_not, Bool.not_true,
    List.contains_eq_any_beq, List.any_eq_false, beq_iff_eq, List.mem_map]
  constructor
  · rintro ⟨hmem, hno⟩
    have : a ∈ rankedEntries es := (hperm.mem_iff).mpr hmem
    rw [← hsplit] at this
    rcases List.mem_append.mp this with h | h
    · exact absurd rfl (hno a.1 ⟨a, h, rfl⟩)
    · exact h
  · intro hdrop
    refine ⟨hperm.mem_iff.mp (by rw [← hsplit]; exact List.mem_append_right _ hdrop), ?_⟩
    rintro x ⟨b, hb, rfl⟩ hba
    exact hdisj b hb a hdrop (by rw [hba])

/-- C5: on an overflowing node (capacity at least 2) with `n` entries,
forced reinsertion evicts exactly
`k = max(1, round(ratio * n))` further clamped to `n - 1` entries
(`round` being Python 3's round-half-to-even on the exact product), the
node keeps the remaining `n - k ≥ 1` entries, and every evicted entry's
rectangle center lies at least as far (in squared Euclidean distance)
from the center of the node's bounding rectangle as every kept
entry's. -/
theorem c5_forced_reinsert_eviction {α : Type} (ratio : ℚ) (maxE : Nat)
    (es : List (Rect × α)) (h1 : 2 ≤ maxE) (h2 : maxE < es.length) :
    (selectReinsert ratio es).2.length =
      (min (max 1 (pythonRound (ratio * es.length))) ((es.length : ℤ) - 1)).toNat ∧
    1 ≤ (selectReinsert ratio es).2.length ∧
    (selectReinsert ratio es).1.length + (selectReinsert ratio es).2.length = es.length ∧
    1 ≤ (selectReinsert ratio es).1.length ∧
    (∀ a ∈ (selectReinsert ratio es).2, ∀ b ∈ (selectReinsert ratio es).1,
      distKey (entriesCenter es) b.1 ≤ distKey (entriesCenter es) a.1) := by
  have hn : 3 ≤ es.length := by omega
  have hmin_le : min (max 1 (pythonRound (ratio * es.length))) ((es.length : ℤ) - 1) ≤
      (es.length : ℤ) - 1 := min_le_right _ _
  have hmin_ge : 1 ≤ min (max 1 (pythonRound (ratio * es.length))) ((es.length : ℤ) - 1) :=
    le_min (le_max_left _ _) (by omega)
  have hkle : reinsertCount ratio es.length ≤ es.length - 1 := by
    unfold reinsertCount
    omega
  have hk1 : 1 ≤ reinsertCount ratio es.length := by
    unfold reinsertCount
    omega
  have hranklen : (rankedEntries es).length = es.length :=
    (rankedEntries_perm es).length_eq.trans (List.enum_length)
  have hevlen : ((rankedEntries es).take (reinsertCount ratio es.length)).length =
      reinsertCount ratio es.length := by
    rw [List.length_take, hranklen]
    omega
  have hkeeplen :
      (es.enum.filter (fun ie =>
        !((((rankedEntries es).take (reinsertCount ratio es.length)).map Prod.fst).contains ie.1))).length =
      es.length - reinsertCount ratio es.length := by
    rw [(selectKeep_perm es (reinsertCount ratio es.length)).length_eq,
      List.length_drop, hranklen]
  simp only [selectReinsert, List.length_map]
  refine ⟨hevlen, by omega, by omega, by omega, ?_⟩
  intro a ha b hb
  rcases List.mem_map.mp ha with ⟨x, hx, rfl⟩
  rcases List.mem_map.mp hb with ⟨y, hy, rfl⟩
  have hy2 : y ∈ (rankedEntries es).drop (reinsertCount ratio es.length) :=
    (selectKeep_perm es (reinsertCount ratio es.length)).mem_iff.mp hy
  have hs := rankedEntries_sorted es
  rw [show rankedEntries es =
      (rankedEntries es).take (reinsertCount ratio es.length) ++
      (rankedEntries es).drop (reinsertCount ratio es.length) from
    (List.take_append_drop _ _).symm] at hs
  exact (List.pairwise_append.mp hs).2.2 x hx y hy2

/-- Witness for `c5_forced_reinsert_eviction`: with ratio 3/10 and
capacity 2, an overflowing 3-entry node evicts exactly one entry. -/
theorem c5_forced_reinsert_eviction_witness :
    (2 ≤ 2 ∧ 2 < ([(ptRect 0 0, (0 : Nat)), (ptRect 1 1, 1), (ptRect 2 2, 2)] :
        List (Rect × Nat)).length) ∧
    (selectReinsert (3 / 10)
      [(ptRect 0 0, (0 : Nat)), (ptRect 1 1, 1), (ptRect 2 2, 2)]).2.length = 1 := by
  refine ⟨⟨by decide, by decide⟩, ?_⟩
  have h := c5_forced_reinsert_eviction (3 / 10) 2
    [(ptRect 0 0, (0 : Nat)), (ptRect 1 1, 1), (ptRect 2 2, 2)] (by decide) (by decide)
  rw [h.1]
  decide

mutual
/-- Induction principle for the nested `Node` type. -/
theorem Node.indPQ {α : Type} (P : Node α → Prop) (Q : List (Rect × Node α) → Prop)
    (hleaf : ∀ es, P (.leaf es)) (hnode : ∀ es, Q es → P (.node es))
    (hnil : Q []) (hcons : ∀ e t, P e.2 → Q t → Q (e :: t)) : ∀ n, P n
  | .leaf es => hleaf es
  | .node es => hnode es (Node.indPQL P Q hleaf hnode hnil hcons es)
/-- List part of `Node.indPQ`. -/
theorem Node.indPQL {α : Type} (P : Node α → Prop) (Q : List (Rect × Node α) → Prop)
    (hleaf : ∀ es, P (.leaf es)) (hnode : ∀ es, Q es → P (.node es))
    (hnil : Q []) (hcons : ∀ e t, P e.2 → Q t → Q (e :: t)) : ∀ l, Q l
  | [] => hnil
  | e :: t =>
    hcons e t (Node.indPQ P Q hleaf hnode hnil hcons e.2)
      (Node.indPQL P Q hleaf hnode hnil hcons t)
end

/-- `leafPathL` looks up the i-th child. -/
theorem leafPathL_eq {α : Type} (rc : Rect) :
    ∀ (i : Nat) (es : List (Rect × Node α)),
    leafPathL rc i es = match es.get? i with
      | some e => leafPath rc e.2
      | none => []
  | _, [] => by simp [leafPathL]
  | 0, e :: t => by simp [leafPathL]
  | i + 1, e :: t => by simpa [leafPathL] using leafPathL_eq rc i t

/-- `replaceChild` is `List.set` keeping the stored rectangle. -/
theorem replaceChild_eq {α : Type} :
    ∀ (es : List (Rect × Node α)) (i : Nat) (c : Node α),
    replaceChild es i c = match es.get? i with
      | some e => es.set i (e.1, c)
      | none => es
  | [], _, _ => by simp [replaceChild]
  | e :: t, 0, c => by simp [replaceChild]
  | e :: t, i + 1, c => by
    have ih := replaceChild_eq t i c
    cases h : t.get? i <;> rw [h] at ih <;> rw [List.get?_eq_getElem?] at h <;>
      simp [replaceChild, List.get?_cons_succ, h, ih]

/-- `addAtPathL` updates the i-th child in place. -/
theorem addAtPathL_eq {α : Type} (rc : Rect) (d : α) (p : List Nat) :
    ∀ (i : Nat) (es : List (Rect × Node α)),
    addAtPathL rc d es i p = match es.get? i with
      | some e => es.set i (e.1, addAtPath rc d e.2 p)
      | none => es
  | _, [] => by simp [addAtPathL]
  | 0, e :: t => by simp [addAtPathL]
  | i + 1, e :: t => by
    have ih := addAtPathL_eq rc d p i t
    cases h : t.get? i <;> rw [h] at ih <;> rw [List.get?_eq_getElem?] at h <;>
      simp [addAtPathL, List.get?_cons_succ, h, ih]

/-- `entriesAtPathL` reads through the i-th child. -/
theorem entriesAtPathL_eq {α : Type} (p : List Nat) :
    ∀ (i : Nat) (es : List (Rect × Node α)),
    entriesAtPathL es i p = match es.get? i with
      | some e => entriesAtPath e.2 p
      | none => []
  | _, [] => by simp [entriesAtPathL]
  | 0, e :: t => by simp [entriesAtPathL]
  | i + 1, e :: t => by simpa [entriesAtPathL] using entriesAtPathL_eq p i t

/-- `setEntriesAtPathL` updates the i-th child in place. -/
theorem setEntriesAtPathL_eq {α : Type} (ks : List (Rect × α)) (p : List Nat) :
    ∀ (i : Nat) (es : List (Rect × Node α)),
    setEntriesAtPathL ks es i p = match es.get? i with
      | some e => es.set i (e.1, setEntriesAtPath ks e.2 p)
      | none => es
  | _, [] => by simp [setEntriesAtPathL]
  | 0, e :: t => by simp [setEntriesAtPathL]
  | i + 1, e :: t => by
    have ih := setEntriesAtPathL_eq ks p i t
    cases h : t.get? i <;> rw [h] at ih <;> rw [List.get?_eq_getElem?] at h <;>
      simp [setEntriesAtPathL, List.get?_cons_succ, h, ih]

/-- `bubbleUpAtL` rewrites the i-th entry with the updated child and its
fresh bounding rectangle. -/
theorem bubbleUpAtL_eq {α : Type} (p : List Nat) :
    ∀ (i : Nat) (es : List (Rect × Node α)),
    bubbleUpAtL es i p = match es.get? i with
      | some e => es.set i ((bubbleUpAt e.2 p).mbr, bubbleUpAt e.2 p)
      | none => es
  | _, [] => by simp [bubbleUpAtL]
  | 0, e :: t => by simp [bubbleUpAtL]
  | i + 1, e :: t => by
    have ih := bubbleUpAtL_eq p i t
    cases h : t.get? i <;> rw [h] at ih <;> rw [List.get?_eq_getElem?] at h <;>
      simp [bubbleUpAtL, List.get?_cons_succ, h, ih]

/-- `adjustAtTrkL` recurses into the i-th child when it exists. -/
theorem adjustAtTrkL_eq {α : Type} (m : Nat) (p : List Nat) (sub : Option (List Nat)) :
    ∀ (i : Nat) (es : List (Rect × Node α)),
    adjustAtTrkL m es i p sub = (es.get? i).map (fun e => adjustAtTrk m e.2 p sub)
  | _, [] => by simp [adjustAtTrkL]
  | 0, e :: t => by simp [adjustAtTrkL]
  | i + 1, e :: t => by simpa [adjustAtTrkL] using adjustAtTrkL_eq m p sub i t

/-- Membership form of the capacity walker. -/
theorem capOKL_iff {α : Type} (m : Nat) :
    ∀ l : List (Rect × Node α), capOKL m l = true ↔ ∀ e ∈ l, capOK m e.2 = true
  | [] => by simp [capOKL]
  | e :: t => by
    simp [capOKL, capOKL_iff m t]

/-- Membership form of the no-empty-internal walker. -/
theorem noEmptyIntL_iff {α : Type} :
    ∀ l : List (Rect × Node α), noEmptyIntL l = true ↔ ∀ e ∈ l, noEmptyInt e.2 = true
  | [] => by simp [noEmptyIntL]
  | e :: t => by
    simp [noEmptyIntL, noEmptyIntL_iff t]

/-- Membership form of `capOK` on an internal node. -/
theorem capOK_node {α : Type} (m : Nat) (es : List (Rect × Node α)) :
    capOK m (.node es) = true ↔ es.length ≤ m ∧ ∀ e ∈ es, capOK m e.2 = true := by
  simp [capOK, capOKL_iff]

/-- Membership form of `noEmptyInt` on an internal node. -/
theorem noEmptyInt_node {α : Type} (es : List (Rect × Node α)) :
    noEmptyInt (.node es) = true ↔ es ≠ [] ∧ ∀ e ∈ es, noEmptyInt e.2 = true := by
  simp [noEmptyInt, noEmptyIntL_iff]

/-- The leaf-entry walker distributes over append. -/
theorem leafListL_append {α : Type} :
    ∀ l1 l2 : List (Rect × Node α), leafListL (l1 ++ l2) = leafListL l1 ++ leafListL l2
  | [], l2 => by simp [leafListL]
  | e :: t, l2 => by simp [leafListL, leafListL_append t l2]

/-- Decomposition of the leaf-entry walker around the i-th element. -/
theorem leafListL_decomp {α : Type} :
    ∀ (i : Nat) (es : List (Rect × Node α)) (e : Rect × Node α),
    es.get? i = some e →
    leafListL es = leafListL (es.take i) ++ (leafList e.2 ++ leafListL (es.drop (i + 1)))
  | _, [], _ => by simp
  | 0, x :: t, e => by
    intro h
    simp only [List.get?] at h
    cases h
    simp [leafListL]
  | i + 1, x :: t, e => by
    intro h
    simp only [List.get?] at h
    have := leafListL_decomp i t e h
    simp [leafListL, this]

/-- The leaf-entry walker after a `set` of the i-th element. -/
theorem leafListL_set {α : Type} :
    ∀ (i : Nat) (es : List (Rect × Node α)) (e x : Rect × Node α),
    es.get? i = some e →
    leafListL (es.set i x) =
      leafListL (es.take i) ++ (leafList x.2 ++ leafListL (es.drop (i + 1)))
  | _, [], _, _ => by simp
  | 0, y :: t, e, x => by
    intro h
    simp [leafListL]
  | i + 1, y :: t, e, x => by
    intro h
    simp only [List.get?] at h
    have := leafListL_set i t e x h
    simp [leafListL, this]

/-- The running best index of the `choose_leaf` loop stays in range. -/
theorem bestIdxAux_lt (rc : Rect) (n : Nat) :
    ∀ (t : List Rect) (i : Nat) (best : Nat × (ℚ × ℚ)),
    best.1 < n → i + t.length ≤ n → bestIdxAux rc i best t < n
  | [], _, _, hb, _ => hb
  | r :: t, i, best, hb, hi => by
    simp only [bestIdxAux]
    split
    · exact bestIdxAux_lt rc n t (i + 1) (i, chooseKey rc r)
        (by simp only []; simp at hi ⊢; omega) (by simp at hi; omega)
    · exact bestIdxAux_lt rc n t (i + 1) best hb (by simp at hi; omega)

/-- `choose_leaf` selects an existing child on a nonempty entry list. -/
theorem bestIdx_lt (rc : Rect) (rs : List Rect) (h : rs ≠ []) :
    bestIdx rc rs < rs.length := by
  match rs with
  | [] => exact absurd rfl h
  | r :: t =>
    exact bestIdxAux_lt rc (r :: t).length t 1 (0, chooseKey rc r)
      (by simp) (by simp; omega)

/-- On a tree without empty internal nodes, `choose_leaf` produces a
valid leaf path. -/
theorem leafPath_pathOK {α : Type} (rc : Rect) :
    ∀ t : Node α, noEmptyInt t = true → PathOK (leafPath rc t) t := by
  refine Node.indPQ
    (fun t => noEmptyInt t = true → PathOK (leafPath rc t) t)
    (fun l => ∀ e ∈ l, noEmptyInt e.2 = true → PathOK (leafPath rc e.2) e.2)
    ?_ ?_ ?_ ?_
  · intro es _
    simp [leafPath, PathOK]
  · intro es hQ hne
    rcases (noEmptyInt_node es).mp hne with ⟨hnil, hch⟩
    have hlt : bestIdx rc (es.map Prod.fst) < es.length := by
      have := bestIdx_lt rc (es.map Prod.fst) (by simpa using hnil)
      simpa using this
    have hget : es.get? (bestIdx rc (es.map Prod.fst)) =
        some (es.get ⟨bestIdx rc (es.map Prod.fst), hlt⟩) :=
      List.get?_eq_get hlt
    set e := es.get ⟨bestIdx rc (es.map Prod.fst), hlt⟩ with he
    refine ⟨e, hget, ?_⟩
    · show PathOK (leafPathL rc (bestIdx rc (es.map Prod.fst)) es) e.2
      rw [leafPathL_eq, hget]
      have hmem : e ∈ es := by
        rw [he]
        exact es.get_mem _ hlt
      exact hQ e hmem (hch e hmem)
  · intro e hmem
    exact absurd hmem (List.not_mem_nil e)
  · intro e t hP hQ x hx hne
    rcases List.mem_cons.mp hx with h | h
    · subst h; exact hP hne
    · exact hQ x h hne

/-- Effect of `leaf.add` at a valid leaf path on a capacity-correct
tree: the target leaf may now overflow by one (`capOKx`), structural
well-formedness and the path stay intact, the stored multiset gains the
new entry, and the leaf's entry list gains it at the end. -/
theorem addAtPath_ops {α : Type} (m : Nat) (rc : Rect) (d : α) :
    ∀ (p : List Nat) (t : Node α), PathOK p t → capOK m t = true →
    capOKx m p (addAtPath rc d t p) ∧
    (noEmptyInt t = true → noEmptyInt (addAtPath rc d t p) = true) ∧
    leafMS (addAtPath rc d t p) = leafMS t + {(rc, d)} ∧
    PathOK p (addAtPath rc d t p) ∧
    entriesAtPath (addAtPath rc d t p) p = entriesAtPath t p ++ [(rc, d)]
  | [], .node es, hp, _ => absurd hp (by simp [PathOK])
  | [], .leaf es, _, hc => by
    have hlen : es.length ≤ m := by simpa [capOK] using hc
    refine ⟨⟨by simp [addAtPath, Node.entriesLen]; omega, by simp [addAtPath, childrenCapOK]⟩,
      fun _ => by simp [addAtPath, noEmptyInt], ?_, by simp [addAtPath, PathOK], ?_⟩
    · show (↑(es ++ [(rc, d)]) : Multiset (Rect × α)) = ↑es + {(rc, d)}
      rw [← Multiset.coe_add, Multiset.coe_singleton]
    · simp [addAtPath, entriesAtPath]
  | i :: p, .leaf es, hp, _ => absurd hp (by simp [PathOK])
  | i :: p, .node es, hp, hc => by
    rcases hp with ⟨e, hget, hsub⟩
    have hcn := (capOK_node m es).mp hc
    have hmem : e ∈ es := List.get?_mem hget
    have ih := addAtPath_ops m rc d p e.2 hsub (hcn.2 e hmem)
    have hlt : i < es.length := by
      rcases List.get?_eq_some.mp hget with ⟨h, _⟩
      exact h
    have hadd : addAtPath rc d (.node es) (i :: p) =
        .node (es.set i (e.1, addAtPath rc d e.2 p)) := by
      rw [show addAtPath rc d (Node.node es) (i :: p) = .node (addAtPathL rc d es i p) from rfl,
        addAtPathL_eq, hget]
    have hgotset : (es.set i (e.1, addAtPath rc d e.2 p)).get? i =
        some (e.1, addAtPath rc d e.2 p) := by
      rw [List.get?_eq_getElem?]
      exact List.getElem?_set_self (by simpa using hlt)
    rw [hadd]
    refine ⟨?_, ?_, ?_, ?_, ?_⟩
    · show capOKx m (i :: p) (Node.node (es.set i (e.1, addAtPath rc d e.2 p)))
      refine ⟨by simpa using hcn.1, ?_⟩
      intro j e' hj
      constructor
      · rintro rfl
        rw [hgotset] at hj
        cases hj
        exact ih.1
      · intro hne
        rw [List.get?_eq_getElem?, List.getElem?_set_ne (fun h => hne h.symm),
          ← List.get?_eq_getElem?] at hj
        exact hcn.2 e' (List.get?_mem hj)
    · intro hne
      rcases (noEmptyInt_node es).mp hne with ⟨hnil, hch⟩
      apply (noEmptyInt_node _).mpr
      constructor
      · intro habs
        apply hnil
        have := congrArg List.length habs
        simp at this
        exact this
      · intro x hx
        rcases List.mem_or_eq_of_mem_set hx with h | h
        · exact hch x h
        · rw [h]
          exact ih.2.1 (hch e hmem)
    · have hdec := leafListL_decomp i es e hget
      have hset := leafListL_set i es e (e.1, addAtPath rc d e.2 p) hget
      have hihms : (↑(leafList (addAtPath rc d e.2 p)) : Multiset (Rect × α)) =
          ↑(leafList e.2) + {(rc, d)} := ih.2.2.1
      show (↑(leafList (Node.node (es.set i (e.1, addAtPath rc d e.2 p)))) :
          Multiset (Rect × α)) = ↑(leafList (Node.node es)) + {(rc, d)}
      rw [show leafList (Node.node (es.set i (e.1, addAtPath rc d e.2 p))) =
            leafListL (es.set i (e.1, addAtPath rc d e.2 p)) from rfl,
        show leafList (Node.node es) = leafListL es from rfl, hset, hdec,
        ← Multiset.coe_add, ← Multiset.coe_add, ← Multiset.coe_add,
        ← Multiset.coe_add, hihms]
      abel
    · exact ⟨(e.1, addAtPath rc d e.2 p), hgotset, ih.2.2.2.1⟩
    · show entriesAtPathL (es.set i (e.1, addAtPath rc d e.2 p)) i p =
        entriesAtPath (Node.node es) (i :: p) ++ [(rc, d)]
      rw [entriesAtPathL_eq, hgotset,
        show entriesAtPath (Node.node es) (i :: p) = entriesAtPathL es i p from rfl,
        entriesAtPathL_eq, hget]
      exact ih.2.2.2.2

/-- Membership in a `set` list, distinguishing the replaced slot. -/
theorem mem_set_cases {β : Type} {l : List β} {i : Nat} {b a : β} (h : a ∈ l.set i b) :
    (∃ j, j ≠ i ∧ l.get? j = some a) ∨ a = b := by
  rcases (List.mem_iff_get?).mp h with ⟨j, hj⟩
  by_cases hji : j = i
  · subst hji
    have hlt : j < l.length := by
      rcases List.get?_eq_some.mp hj with ⟨hh, _⟩
      simpa using hh
    rw [List.get?_eq_getElem?, List.getElem?_set_self (by simpa using hlt)] at hj
    cases hj
    exact Or.inr rfl
  · rw [List.get?_eq_getElem?, List.getElem?_set_ne (fun hh => hji hh.symm),
      ← List.get?_eq_getElem?] at hj
    exact Or.inl ⟨j, hji, hj⟩

/-- Effect of `node.entries = keep` at a valid leaf path on a tree
whose only (possible) overflow sits at that leaf: with the replacement
list within capacity the whole tree is within capacity, and the stored
multiset exchanges the old leaf entries for the new ones. -/
theorem setEntriesAtPath_ops {α : Type} (m : Nat) (ks : List (Rect × α))
    (hk : ks.length ≤ m) :
    ∀ (p : List Nat) (t : Node α), PathOK p t → capOKx m p t →
    capOK m (setEntriesAtPath ks t p) = true ∧
    (noEmptyInt t = true → noEmptyInt (setEntriesAtPath ks t p) = true) ∧
    leafMS (setEntriesAtPath ks t p) + ↑(entriesAtPath t p) = leafMS t + ↑ks ∧
    PathOK p (setEntriesAtPath ks t p) ∧
    entriesAtPath (setEntriesAtPath ks t p) p = ks
  | [], .node es, hp, _ => absurd hp (by simp [PathOK])
  | [], .leaf es, _, hx => by
    refine ⟨by simpa [setEntriesAtPath, capOK] using hk,
      fun _ => by simp [setEntriesAtPath, noEmptyInt], ?_,
      by simp [setEntriesAtPath, PathOK], by simp [setEntriesAtPath, entriesAtPath]⟩
    · show (↑(leafList (Node.leaf ks)) : Multiset (Rect × α)) + ↑es =
        ↑(leafList (Node.leaf es)) + ↑ks
      show (↑ks : Multiset (Rect × α)) + ↑es = ↑es + ↑ks
      exact add_comm _ _
  | i :: p, .leaf es, hp, _ => absurd hp (by simp [PathOK])
  | i :: p, .node es, hp, hx => by
    rcases hp with ⟨e, hget, hsub⟩
    have hmem : e ∈ es := List.get?_mem hget
    have hlt : i < es.length := by
      rcases List.get?_eq_some.mp hget with ⟨h, _⟩
      exact h
    have ih := setEntriesAtPath_ops m ks hk p e.2 hsub ((hx.2 i e hget).1 rfl)
    have hset : setEntriesAtPath ks (.node es) (i :: p) =
        .node (es.set i (e.1, setEntriesAtPath ks e.2 p)) := by
      rw [show setEntriesAtPath ks (Node.node es) (i :: p) =
          .node (setEntriesAtPathL ks es i p) from rfl,
        setEntriesAtPathL_eq, hget]
    have hgotset : (es.set i (e.1, setEntriesAtPath ks e.2 p)).get? i =
        some (e.1, setEntriesAtPath ks e.2 p) := by
      rw [List.get?_eq_getElem?]
      exact List.getElem?_set_self (by simpa using hlt)
    rw [hset]
    refine ⟨?_, ?_, ?_, ?_, ?_⟩
    · apply (capOK_node m _).mpr
      refine ⟨by simpa using hx.1, ?_⟩
      intro x hxm
      rcases mem_set_cases hxm with ⟨j, hji, hj⟩ | h
      · exact (hx.2 j x hj).2 hji
      · rw [h]
        exact ih.1
    · intro hne
      rcases (noEmptyInt_node es).mp hne with ⟨hnil, hch⟩
      apply (noEmptyInt_node _).mpr
      constructor
      · intro habs
        apply hnil
        have := congrArg List.length habs
        simp at this
        exact this
      · intro x hxm
        rcases List.mem_or_eq_of_mem_set hxm with h | h
        · exact hch x h
        · rw [h]
          exact ih.2.1 (hch e hmem)
    · have hdec := leafListL_decomp i es e hget
      have hsetl := leafListL_set i es e (e.1, setEntriesAtPath ks e.2 p) hget
      have hihms := ih.2.2.1
      simp only [leafMS] at hihms ⊢
      rw [show leafList (Node.node (es.set i (e.1, setEntriesAtPath ks e.2 p))) =
            leafListL (es.set i (e.1, setEntriesAtPath ks e.2 p)) from rfl,
        show leafList (Node.node es) = leafListL es from rfl, hsetl, hdec,
        show entriesAtPath (Node.node es) (i :: p) = entriesAtPathL es i p from rfl,
        entriesAtPathL_eq, hget,
        ← Multiset.coe_add, ← Multiset.coe_add, ← Multiset.coe_add, ← Multiset.coe_add]
      calc (↑(leafListL (es.take i)) : Multiset (Rect × α)) +
            (↑(leafList (setEntriesAtPath ks e.2 p)) + ↑(leafListL (es.drop (i + 1)))) +
            ↑(entriesAtPath e.2 p)
          = ↑(leafListL (es.take i)) + ↑(leafListL (es.drop (i + 1))) +
            (↑(leafList (setEntriesAtPath ks e.2 p)) + ↑(entriesAtPath e.2 p)) := by abel
        _ = ↑(leafListL (es.take i)) + ↑(leafListL (es.drop (i + 1))) +
            (↑(leafList e.2) + ↑ks) := by rw [hihms]
        _ = ↑(leafListL (es.take i)) + (↑(leafList e.2) + ↑(leafListL (es.drop (i + 1)))) +
            ↑ks := by abel
    · exact ⟨(e.1, setEntriesAtPath ks e.2 p), hgotset, ih.2.2.2.1⟩
    · rw [show entriesAtPath
          (Node.node (es.set i (e.1, setEntriesAtPath ks e.2 p))) (i :: p) =
          entriesAtPathL (es.set i (e.1, setEntriesAtPath ks e.2 p)) i p from rfl,
        entriesAtPathL_eq, hgotset]
      exact ih.2.2.2.2

/-- `_bubble_up_mbr` only rewrites stored rectangles: entry counts,
structural well-formedness and the stored leaf entries are untouched. -/
theorem bubbleUpAt_ops {α : Type} (m : Nat) :
    ∀ (p : List Nat) (t : Node α),
    (capOK m t = true → capOK m (bubbleUpAt t p) = true) ∧
    (noEmptyInt t = true → noEmptyInt (bubbleUpAt t p) = true) ∧
    leafList (bubbleUpAt t p) = leafList t
  | [], t => by
    have hb : bubbleUpAt t [] = t := by cases t <;> rfl
    rw [hb]
    exact ⟨id, id, rfl⟩
  | i :: p, .leaf es => by
    have hb : bubbleUpAt (Node.leaf es) (i :: p) = Node.leaf es := rfl
    rw [hb]
    exact ⟨id, id, rfl⟩
  | i :: p, .node es => by
    have hb : bubbleUpAt (Node.node es) (i :: p) = .node (bubbleUpAtL es i p) := rfl
    rw [hb, bubbleUpAtL_eq]
    cases hget : es.get? i with
    | none => exact ⟨id, id, rfl⟩
    | some e =>
      have hmem : e ∈ es := List.get?_mem hget
      have ih := bubbleUpAt_ops m p e.2
      refine ⟨?_, ?_, ?_⟩
      · intro hc
        rcases (capOK_node m es).mp hc with ⟨h1, h2⟩
        apply (capOK_node m _).mpr
        refine ⟨by simpa using h1, ?_⟩
        intro x hxm
        rcases mem_set_cases hxm with ⟨j, _, hj⟩ | h
        · exact h2 x (List.get?_mem hj)
        · rw [h]
          exact ih.1 (h2 e hmem)
      · intro hn
        rcases (noEmptyInt_node es).mp hn with ⟨h1, h2⟩
        apply (noEmptyInt_node _).mpr
        constructor
        · intro habs
          apply h1
          have := congrArg List.length habs
          simpa using this
        · intro x hxm
          rcases mem_set_cases hxm with ⟨j, _, hj⟩ | h
          · exact h2 x (List.get?_mem hj)
          · rw [h]
            exact ih.2.1 (h2 e hmem)
      · rw [show leafList (Node.node (es.set i ((bubbleUpAt e.2 p).mbr, bubbleUpAt e.2 p))) =
            leafListL (es.set i ((bubbleUpAt e.2 p).mbr, bubbleUpAt e.2 p)) from rfl,
          show leafList (Node.node es) = leafListL es from rfl,
          leafListL_set i es e _ hget, leafListL_decomp i es e hget, ih.2.2]

/-- Every entry list read through a path in a capacity-correct tree is
within capacity. -/
theorem capOK_entriesAtPath_le {α : Type} (m : Nat) :
    ∀ (p : List Nat) (t : Node α), capOK m t = true → (entriesAtPath t p).length ≤ m
  | [], .leaf es, hc => by simpa [entriesAtPath, capOK] using hc
  | [], .node _, _ => by simp [entriesAtPath]
  | _ :: _, .leaf _, _ => by simp [entriesAtPath]
  | i :: p, .node es, hc => by
    rw [show entriesAtPath (Node.node es) (i :: p) = entriesAtPathL es i p from rfl,
      entriesAtPathL_eq]
    cases hget : es.get? i with
    | none => simp
    | some e =>
      exact capOK_entriesAtPath_le m p e.2
        (((capOK_node m es).mp hc).2 e (List.get?_mem hget))

/-- A transiently overflowing tree whose overflow leaf is in fact within
capacity is capacity-correct. -/
theorem capOKx_resolve {α : Type} (m : Nat) :
    ∀ (p : List Nat) (t : Node α), PathOK p t → capOKx m p t →
    (entriesAtPath t p).length ≤ m → capOK m t = true
  | [], .leaf es, _, _, hlen => by
    simp only [capOK, decide_eq_true_eq]
    simpa [entriesAtPath] using hlen
  | [], .node _, hp, _, _ => absurd hp (by simp [PathOK])
  | _ :: _, .leaf _, hp, _, _ => absurd hp (by simp [PathOK])
  | i :: p, .node es, hp, hx, hlen => by
    rcases hp with ⟨e, hget, hsub⟩
    apply (capOK_node m es).mpr
    refine ⟨hx.1, ?_⟩
    intro x hxm
    rcases (List.mem_iff_get?).mp hxm with ⟨j, hj⟩
    by_cases hji : j = i
    · subst hji
      rw [hget] at hj
      injection hj with hex
      subst hex
      apply capOKx_resolve m p e.2 hsub ((hx.2 j e hget).1 rfl)
      rw [show entriesAtPath (Node.node es) (j :: p) = entriesAtPathL es j p from rfl,
        entriesAtPathL_eq, hget] at hlen
      exact hlen
    · exact (hx.2 j x hj).2 hji

/-- On a valid leaf path the node count at the path is the entry-list
length read there. -/
theorem nodeLenAt_leaf {α : Type} :
    ∀ (p : List Nat) (t : Node α), PathOK p t →
    nodeLenAt p t = (entriesAtPath t p).length
  | [], .leaf es, _ => by simp [nodeLenAt, entriesAtPath, Node.entriesLen]
  | [], .node _, hp => absurd hp (by simp [PathOK])
  | _ :: _, .leaf _, hp => absurd hp (by simp [PathOK])
  | i :: p, .node es, hp => by
    rcases hp with ⟨e, hget, hsub⟩
    rw [show entriesAtPath (Node.node es) (i :: p) = entriesAtPathL es i p from rfl,
      entriesAtPathL_eq, hget,
      show nodeLenAt (i :: p) (Node.node es) =
        (match es.get? i with
         | some e => nodeLenAt p e.2
         | none => 0) from rfl, hget]
    exact nodeLenAt_leaf p e.2 hsub

/-- Splitting a node that holds between 2 and `m + 1` entries (capacity
`m ≥ 2`) yields two nonempty halves within capacity that together hold
exactly the original entries. -/
theorem splitNodeHalves_ok {α : Type} (m : Nat) (hm : 2 ≤ m) (t : Node α)
    (hlen2 : 2 ≤ t.entriesLen) (hlen : t.entriesLen ≤ m + 1)
    (hcc : childrenCapOK m t = true) (hn : noEmptyInt t = true) :
    capOK m (splitNodeHalves t).1 = true ∧ capOK m (splitNodeHalves t).2 = true ∧
    noEmptyInt (splitNodeHalves t).1 = true ∧ noEmptyInt (splitNodeHalves t).2 = true ∧
    leafMS (splitNodeHalves t).1 + leafMS (splitNodeHalves t).2 = leafMS t := by
  match t with
  | .leaf es =>
    simp only [Node.entriesLen] at hlen2 hlen
    refine ⟨?_, ?_, by simp [splitNodeHalves, noEmptyInt],
      by simp [splitNodeHalves, noEmptyInt], ?_⟩
    · simp only [splitNodeHalves, capOK, List.length_take, decide_eq_true_eq, splitHalf]
      omega
    · simp only [splitNodeHalves, capOK, List.length_drop, decide_eq_true_eq, splitHalf]
      omega
    · show (↑(leafList (Node.leaf (es.take (splitHalf es.length)))) : Multiset (Rect × α)) +
        ↑(leafList (Node.leaf (es.drop (splitHalf es.length)))) = ↑(leafList (Node.leaf es))
      show (↑(es.take (splitHalf es.length)) : Multiset (Rect × α)) +
        ↑(es.drop (splitHalf es.length)) = ↑es
      rw [Multiset.coe_add, List.take_append_drop]
  | .node es =>
    simp only [Node.entriesLen] at hlen2 hlen
    have hch := (capOKL_iff m es).mp (by simpa [childrenCapOK] using hcc)
    have hchn := ((noEmptyInt_node es).mp hn).2
    refine ⟨?_, ?_, ?_, ?_, ?_⟩
    · apply (capOK_node m _).mpr
      refine ⟨by simp [List.length_take, splitHalf]; omega, ?_⟩
      intro e he
      exact hch e (List.mem_of_mem_take he)
    · apply (capOK_node m _).mpr
      refine ⟨by simp [List.length_drop, splitHalf]; omega, ?_⟩
      intro e he
      exact hch e (List.mem_of_mem_drop he)
    · apply (noEmptyInt_node _).mpr
      refine ⟨?_, fun e he => hchn e (List.mem_of_mem_take he)⟩
      intro habs
      have := congrArg List.length habs
      simp only [List.length_take, List.length_nil, splitHalf] at this
      omega
    · apply (noEmptyInt_node _).mpr
      refine ⟨?_, fun e he => hchn e (List.mem_of_mem_drop he)⟩
      intro habs
      have := congrArg List.length habs
      simp only [List.length_drop, List.length_nil, splitHalf] at this
      omega
    · show (↑(leafListL (es.take (splitHalf es.length))) : Multiset (Rect × α)) +
        ↑(leafListL (es.drop (splitHalf es.length))) = ↑(leafListL es)
      rw [Multiset.coe_add, ← leafListL_append, List.take_append_drop]

/-- Soundness of `adjust_after_split` below the root: on a tree whose
only (possible) overflow is the node at the given path (which holds at
least two entries), the adjustment yields a capacity-correct,
well-formed result holding exactly the original leaf entries — either
as one subtree or as the two halves the caller still has to place. -/
theorem adjustAtTrk_sound {α : Type} (m : Nat) (hm : 2 ≤ m) :
    ∀ (p : List Nat) (t : Node α) (pt : Option (List Nat)),
    capOKx m p t → noEmptyInt t = true → 2 ≤ nodeLenAt p t →
    (∀ n t2, adjustAtTrk m t p pt = .one n t2 →
      capOK m n = true ∧ noEmptyInt n = true ∧ leafMS n = leafMS t) ∧
    (∀ l r t2, adjustAtTrk m t p pt = .two l r t2 →
      capOK m l = true ∧ capOK m r = true ∧ noEmptyInt l = true ∧
      noEmptyInt r = true ∧ leafMS l + leafMS r = leafMS t)
  | [], t, pt, hx, hn, hlen => by
    have hsp := splitNodeHalves_ok m hm t (by simpa [nodeLenAt] using hlen) hx.1 hx.2 hn
    have hadj : adjustAtTrk m t [] pt = splitWithTrk t pt := by
      cases t <;> rfl
    rw [hadj]
    constructor
    · intro n t2 h
      simp [splitWithTrk] at h
    · intro l r t2 h
      simp only [splitWithTrk, AdjRes.two.injEq] at h
      rw [← h.1, ← h.2.1]
      exact ⟨hsp.1, hsp.2.1, hsp.2.2.1, hsp.2.2.2.1, hsp.2.2.2.2⟩
  | i :: p', .leaf es, pt, hx, _, _ => absurd hx (by simp [capOKx])
  | i :: p', .node es, pt, hx, hn, hlen => by
    cases hget : es.get? i with
    | none =>
      rw [show nodeLenAt (i :: p') (Node.node es) =
          (match es.get? i with
           | some e => nodeLenAt p' e.2
           | none => 0) from rfl, hget] at hlen
      simp at hlen
    | some e =>
      have hmem : e ∈ es := List.get?_mem hget
      have hlt : i < es.length := by
        rcases List.get?_eq_some.mp hget with ⟨h, _⟩
        exact h
      have hsublen : 2 ≤ nodeLenAt p' e.2 := by
        rw [show nodeLenAt (i :: p') (Node.node es) =
            (match es.get? i with
             | some e => nodeLenAt p' e.2
             | none => 0) from rfl, hget] at hlen
        exact hlen
      rcases (noEmptyInt_node es).mp hn with ⟨hnil, hchn⟩
      have ih := adjustAtTrk_sound m hm p' e.2 (subTrk pt i)
        ((hx.2 i e hget).1 rfl) (hchn e hmem) hsublen
      have hadj : adjustAtTrk m (Node.node es) (i :: p') pt =
          (match adjustAtTrkL m es i p' (subTrk pt i) with
           | none => .one (.node es) pt
           | some (.one c tc) => .one (.node (replaceChild es i c)) (rejoinOne pt i tc)
           | some (.two l r tc) =>
             if m < (replaceChild es i l ++ [(r.mbr, r)]).length
             then splitWithTrk (.node (replaceChild es i l ++ [(r.mbr, r)]))
               (rejoinTwo pt i es.length tc)
             else .one (.node (replaceChild es i l ++ [(r.mbr, r)]))
               (rejoinTwo pt i es.length tc)) := rfl
      cases hres : adjustAtTrk m e.2 p' (subTrk pt i) with
      | one c tc =>
        have hstep : adjustAtTrk m (Node.node es) (i :: p') pt =
            .one (.node (replaceChild es i c)) (rejoinOne pt i tc) := by
          rw [hadj, adjustAtTrkL_eq, hget, Option.map_some', hres]
        have hone := ih.1 c tc hres
        have hrepl : replaceChild es i c = es.set i (e.1, c) := by
          rw [replaceChild_eq, hget]
        have hcap : capOK m (Node.node (replaceChild es i c)) = true := by
          rw [hrepl]
          apply (capOK_node m _).mpr
          refine ⟨by simpa using hx.1, ?_⟩
          intro x hxm
          rcases mem_set_cases hxm with ⟨j, hji, hj⟩ | h
          · exact (hx.2 j x hj).2 hji
          · rw [h]
            exact hone.1
        have hne : noEmptyInt (Node.node (replaceChild es i c)) = true := by
          rw [hrepl]
          apply (noEmptyInt_node _).mpr
          constructor
          · intro habs
            apply hnil
            have := congrArg List.length habs
            simpa using this
          · intro x hxm
            rcases mem_set_cases hxm with ⟨j, _, hj⟩ | h
            · exact hchn x (List.get?_mem hj)
            · rw [h]
              exact hone.2.1
        have hms : leafMS (Node.node (replaceChild es i c)) = leafMS (Node.node es) := by
          rw [hrepl]
          show (↑(leafListL (es.set i (e.1, c))) : Multiset (Rect × α)) = ↑(leafListL es)
          rw [leafListL_set i es e (e.1, c) hget, leafListL_decomp i es e hget]
          have : (↑(leafList c) : Multiset (Rect × α)) = ↑(leafList e.2) := hone.2.2
          rw [← Multiset.coe_add, ← Multiset.coe_add, ← Multiset.coe_add,
            ← Multiset.coe_add, this]
        constructor
        · intro n t2 h
          rw [hstep] at h
          injection h with h1 h2
          rw [← h1]
          exact ⟨hcap, hne, hms⟩
        · intro l r t2 h
          rw [hstep] at h
          exact absurd h (by simp)
      | two cl cr tc =>
        have hstep : adjustAtTrk m (Node.node es) (i :: p') pt =
            (if m < (replaceChild es i cl ++ [(cr.mbr, cr)]).length
             then splitWithTrk (.node (replaceChild es i cl ++ [(cr.mbr, cr)]))
               (rejoinTwo pt i es.length tc)
             else .one (.node (replaceChild es i cl ++ [(cr.mbr, cr)]))
               (rejoinTwo pt i es.length tc)) := by
          rw [hadj, adjustAtTrkL_eq, hget, Option.map_some', hres]
        have htwo := ih.2 cl cr tc hres
        have hrepl : replaceChild es i cl = es.set i (e.1, cl) := by
          rw [replaceChild_eq, hget]
        have hlen2 : (replaceChild es i cl ++ [(cr.mbr, cr)]).length = es.length + 1 := by
          rw [hrepl]
          simp
        have hchcap : ∀ x ∈ replaceChild es i cl ++ [(cr.mbr, cr)], capOK m x.2 = true := by
          intro x hxm
          rcases List.mem_append.mp hxm with h | h
          · rw [hrepl] at h
            rcases mem_set_cases h with ⟨j, hji, hj⟩ | h2
            · exact (hx.2 j x hj).2 hji
            · rw [h2]
              exact htwo.1
          · rw [List.mem_singleton.mp h]
            exact htwo.2.1
        have hchne : ∀ x ∈ replaceChild es i cl ++ [(cr.mbr, cr)], noEmptyInt x.2 = true := by
          intro x hxm
          rcases List.mem_append.mp hxm with h | h
          · rw [hrepl] at h
            rcases mem_set_cases h with ⟨j, _, hj⟩ | h2
            · exact hchn x (List.get?_mem hj)
            · rw [h2]
              exact htwo.2.2.1
          · rw [List.mem_singleton.mp h]
            exact htwo.2.2.2.1
        have hnee : noEmptyInt (Node.node (replaceChild es i cl ++ [(cr.mbr, cr)])) = true := by
          apply (noEmptyInt_node _).mpr
          exact ⟨by simp, hchne⟩
        have hmse : leafMS (Node.node (replaceChild es i cl ++ [(cr.mbr, cr)])) =
            leafMS (Node.node es) := by
          show (↑(leafListL (replaceChild es i cl ++ [(cr.mbr, cr)])) :
            Multiset (Rect × α)) = ↑(leafListL es)
          rw [leafListL_append, hrepl, leafListL_set i es e (e.1, cl) hget,
            leafListL_decomp i es e hget]
          have hsum : (↑(leafList cl) : Multiset (Rect × α)) + ↑(leafList cr) =
              ↑(leafList e.2) := htwo.2.2.2.2
          rw [show leafListL [(cr.mbr, cr)] = leafList cr ++ [] from rfl, List.append_nil,
            ← Multiset.coe_add, ← Multiset.coe_add, ← Multiset.coe_add,
            ← Multiset.coe_add, ← Multiset.coe_add, ← hsum]
          abel
        by_cases hov : m < (replaceChild es i cl ++ [(cr.mbr, cr)]).length
        · rw [if_pos hov] at hstep
          have hsp := splitNodeHalves_ok m hm
            (Node.node (replaceChild es i cl ++ [(cr.mbr, cr)]))
            (by simp only [Node.entriesLen, hlen2]; omega)
            (by simp only [Node.entriesLen, hlen2]; have h1 : es.length ≤ m := hx.1; omega)
            (by simp only [childrenCapOK]; exact (capOKL_iff m _).mpr hchcap)
            hnee
          constructor
          · intro n t2 h
            rw [hstep] at h
            exact absurd h (by simp [splitWithTrk])
          · intro l r t2 h
            rw [hstep] at h
            simp only [splitWithTrk, AdjRes.two.injEq] at h
            rw [← h.1, ← h.2.1]
            refine ⟨hsp.1, hsp.2.1, hsp.2.2.1, hsp.2.2.2.1, ?_⟩
            rw [hsp.2.2.2.2]
            exact hmse
        · rw [if_neg hov] at hstep
          constructor
          · intro n t2 h
            rw [hstep] at h
            injection h with h1 h2
            rw [← h1]
            refine ⟨?_, hnee, hmse⟩
            apply (capOK_node m _).mpr
            exact ⟨by omega, hchcap⟩
          · intro l r t2 h
            rw [hstep] at h
            exact absurd h (by simp)

/-- Bounds on the forced-reinsertion count for a node with at least two
entries: at least one entry is evicted and at least one remains. -/
theorem reinsertCount_bounds (ratio : ℚ) (n : Nat) (hn : 2 ≤ n) :
    1 ≤ reinsertCount ratio n ∧ reinsertCount ratio n ≤ n - 1 := by
  unfold reinsertCount
  have h1 : 1 ≤ min (max 1 (pythonRound (ratio * n))) ((n : ℤ) - 1) :=
    le_min (le_max_left _ _) (by omega)
  have h2 : min (max 1 (pythonRound (ratio * n))) ((n : ℤ) - 1) ≤ (n : ℤ) - 1 :=
    min_le_right _ _
  omega

/-- The eviction step splits the entry list: kept and evicted entries
have complementary lengths, and together they are a permutation of the
original entries (as a multiset). -/
theorem selectReinsert_split {α : Type} (ratio : ℚ) (es : List (Rect × α)) :
    (selectReinsert ratio es).1.length = es.length - reinsertCount ratio es.length ∧
    (↑(selectReinsert ratio es).1 : Multiset (Rect × α)) + ↑(selectReinsert ratio es).2 =
      (↑es : Multiset (Rect × α)) := by
  have hkeep := selectKeep_perm es (reinsertCount ratio es.length)
  have hranklen : (rankedEntries es).length = es.length :=
    (rankedEntries_perm es).length_eq.trans (List.enum_length)
  constructor
  · show ((es.enum.filter (fun ie =>
      !((((rankedEntries es).take (reinsertCount ratio es.length)).map Prod.fst).contains
        ie.1))).map Prod.snd).length = es.length - reinsertCount ratio es.length
    rw [List.length_map, hkeep.length_eq, List.length_drop, hranklen]
  · show (↑((es.enum.filter (fun ie =>
      !((((rankedEntries es).take (reinsertCount ratio es.length)).map Prod.fst).contains
        ie.1))).map Prod.snd) : Multiset (Rect × α)) +
      ↑(((rankedEntries es).take (reinsertCount ratio es.length)).map Prod.snd) =
      (↑es : Multiset (Rect × α))
    rw [Multiset.coe_add, Multiset.coe_eq_coe]
    refine List.Perm.trans ((hkeep.map Prod.snd).append_right _) ?_
    refine List.Perm.trans List.perm_append_comm ?_
    rw [← List.map_append, List.take_append_drop]
    have h := (rankedEntries_perm es).map Prod.snd
    rwa [List.enum_map_snd] at h

/-- One base insertion (`RTree.insert`, with any tracked path) on a
capacity-correct, well-formed tree yields a capacity-correct,
well-formed tree storing exactly one more entry. -/
theorem baseInsertTrk_inv {α : Type} (m : Nat) (hm : 2 ≤ m) (rc : Rect) (d : α)
    (t : Node α) (pt : Option (List Nat))
    (hc : capOK m t = true) (hn : noEmptyInt t = true) :
    capOK m (baseInsertTrk m rc d t pt).1 = true ∧
    noEmptyInt (baseInsertTrk m rc d t pt).1 = true ∧
    leafMS (baseInsertTrk m rc d t pt).1 = leafMS t + {(rc, d)} := by
  have hp := leafPath_pathOK rc t hn
  have hadd := addAtPath_ops m rc d (leafPath rc t) t hp hc
  by_cases hov : m <
      (entriesAtPath (addAtPath rc d t (leafPath rc t)) (leafPath rc t)).length
  · have hbase : baseInsertTrk m rc d t pt =
        adjustAfterSplitTrk m (addAtPath rc d t (leafPath rc t)) (leafPath rc t) pt := by
      unfold baseInsertTrk
      rw [if_pos hov]
    have hlen2 : 2 ≤ nodeLenAt (leafPath rc t) (addAtPath rc d t (leafPath rc t)) := by
      rw [nodeLenAt_leaf _ _ hadd.2.2.2.1]
      omega
    have hsound := adjustAtTrk_sound m hm (leafPath rc t)
      (addAtPath rc d t (leafPath rc t)) pt hadd.1 (hadd.2.1 hn) hlen2
    rw [hbase]
    unfold adjustAfterSplitTrk
    cases hres : adjustAtTrk m (addAtPath rc d t (leafPath rc t)) (leafPath rc t) pt with
    | one n t2 =>
      have h1 := hsound.1 n t2 hres
      exact ⟨h1.1, h1.2.1, by rw [h1.2.2, hadd.2.2.1]⟩
    | two l r t2 =>
      have h2 := hsound.2 l r t2 hres
      refine ⟨?_, ?_, ?_⟩
      · apply (capOK_node m _).mpr
        refine ⟨by simp; omega, ?_⟩
        intro x hx2
        rcases List.mem_cons.mp hx2 with h | h
        · rw [h]
          exact h2.1
        · rw [List.mem_singleton.mp h]
          exact h2.2.1
      · apply (noEmptyInt_node _).mpr
        refine ⟨by simp, ?_⟩
        intro x hx2
        rcases List.mem_cons.mp hx2 with h | h
        · rw [h]
          exact h2.2.2.1
        · rw [List.mem_singleton.mp h]
          exact h2.2.2.2.1
      · show (↑(leafListL [(l.mbr, l), (r.mbr, r)]) : Multiset (Rect × α)) = _
        rw [show leafListL [(l.mbr, l), (r.mbr, r)] =
            leafList l ++ (leafList r ++ []) from rfl, List.append_nil,
          ← Multiset.coe_add]
        show leafMS l + leafMS r = _
        rw [h2.2.2.2.2, hadd.2.2.1]
  · have hbase : baseInsertTrk m rc d t pt =
        (addAtPath rc d t (leafPath rc t), pt) := by
      unfold baseInsertTrk
      rw [if_neg hov]
    rw [hbase]
    dsimp only
    exact ⟨capOKx_resolve m (leafPath rc t) _ hadd.2.2.2.1 hadd.1 (by omega),
      hadd.2.1 hn, hadd.2.2.1⟩

/-- Folding base insertions preserves the invariants and adds exactly
the inserted entries (the reinsertion loop of lines 298-299). -/
theorem baseInsertTrk_fold {α : Type} (m : Nat) (hm : 2 ≤ m) :
    ∀ (l : List (Rect × α)) (t : Node α) (pt : Option (List Nat)),
    capOK m t = true → noEmptyInt t = true →
    capOK m (l.foldl (fun acc e => baseInsertTrk m e.1 e.2 acc.1 acc.2) (t, pt)).1 = true ∧
    noEmptyInt (l.foldl (fun acc e => baseInsertTrk m e.1 e.2 acc.1 acc.2) (t, pt)).1 = true ∧
    leafMS (l.foldl (fun acc e => baseInsertTrk m e.1 e.2 acc.1 acc.2) (t, pt)).1 =
      leafMS t + ↑l
  | [], t, pt, hc, hn => ⟨hc, hn, by simp⟩
  | e :: l, t, pt, hc, hn => by
    have h1 := baseInsertTrk_inv m hm e.1 e.2 t pt hc hn
    have ih := baseInsertTrk_fold m hm l (baseInsertTrk m e.1 e.2 t pt).1
      (baseInsertTrk m e.1 e.2 t pt).2 h1.1 h1.2.1
    rw [show (e :: l).foldl (fun acc x => baseInsertTrk m x.1 x.2 acc.1 acc.2) (t, pt) =
        l.foldl (fun acc x => baseInsertTrk m x.1 x.2 acc.1 acc.2)
          (baseInsertTrk m e.1 e.2 t pt) from rfl]
    refine ⟨ih.1, ih.2.1, ?_⟩
    rw [ih.2.2, h1.2.2, ← Multiset.cons_coe, ← Multiset.singleton_add]
    abel

/-- `bubbleUpAtO` preserves capacity, well-formedness, and the stored
leaf entries. -/
theorem bubbleUpAtO_inv {α : Type} (m : Nat) (x : Node α) (o : Option (List Nat))
    (hcx : capOK m x = true) (hnx : noEmptyInt x = true) :
    capOK m (bubbleUpAtO x o) = true ∧ noEmptyInt (bubbleUpAtO x o) = true ∧
    leafList (bubbleUpAtO x o) = leafList x := by
  cases o with
  | none => exact ⟨hcx, hnx, rfl⟩
  | some pp =>
    exact ⟨(bubbleUpAt_ops m pp x).1 hcx, (bubbleUpAt_ops m pp x).2.1 hnx,
      (bubbleUpAt_ops m pp x).2.2⟩

/-- A single forced-reinsertion pass on the overflowing leaf restores
the capacity bound, keeps the tree well-formed, and moves entries
without losing or duplicating any. -/
theorem forcedReinsertOnce_inv {α : Type} (m : Nat) (hm : 2 ≤ m) (ratio : ℚ)
    (t : Node α) (p : List Nat)
    (hx : capOKx m p t) (hn : noEmptyInt t = true) (hp : PathOK p t)
    (hov : m < (entriesAtPath t p).length)
    (hle : (entriesAtPath t p).length ≤ m + 1) :
    capOK m (forcedReinsertOnce m ratio t p).1 = true ∧
    noEmptyInt (forcedReinsertOnce m ratio t p).1 = true ∧
    leafMS (forcedReinsertOnce m ratio t p).1 = leafMS t := by
  have hn2 : 2 ≤ (entriesAtPath t p).length := by omega
  have hkb := reinsertCount_bounds ratio (entriesAtPath t p).length hn2
  have hsel := selectReinsert_split ratio (entriesAtPath t p)
  have hkeep_le : (selectReinsert ratio (entriesAtPath t p)).1.length ≤ m := by
    rw [hsel.1]
    omega
  have hset := setEntriesAtPath_ops m (selectReinsert ratio (entriesAtPath t p)).1
    hkeep_le p t hp hx
  have hfold := baseInsertTrk_fold m hm (selectReinsert ratio (entriesAtPath t p)).2
    (setEntriesAtPath (selectReinsert ratio (entriesAtPath t p)).1 t p) (some p)
    hset.1 (hset.2.1 hn)
  have hguard : ¬ ((entriesAtPath t p).length ≤ m) := by omega
  unfold forcedReinsertOnce
  rw [if_neg hguard]
  dsimp only
  have hb := bubbleUpAtO_inv m
    ((selectReinsert ratio (entriesAtPath t p)).2.foldl
      (fun acc e => baseInsertTrk m e.1 e.2 acc.1 acc.2)
      (setEntriesAtPath (selectReinsert ratio (entriesAtPath t p)).1 t p, some p)).1
    ((selectReinsert ratio (entriesAtPath t p)).2.foldl
      (fun acc e => baseInsertTrk m e.1 e.2 acc.1 acc.2)
      (setEntriesAtPath (selectReinsert ratio (entriesAtPath t p)).1 t p, some p)).2
    hfold.1 hfold.2.1
  refine ⟨hb.1, hb.2.1, ?_⟩
  have hms : leafMS (bubbleUpAtO
      ((selectReinsert ratio (entriesAtPath t p)).2.foldl
        (fun acc e => baseInsertTrk m e.1 e.2 acc.1 acc.2)
        (setEntriesAtPath (selectReinsert ratio (entriesAtPath t p)).1 t p, some p)).1
      ((selectReinsert ratio (entriesAtPath t p)).2.foldl
        (fun acc e => baseInsertTrk m e.1 e.2 acc.1 acc.2)
        (setEntriesAtPath (selectReinsert ratio (entriesAtPath t p)).1 t p, some p)).2) =
      leafMS ((selectReinsert ratio (entriesAtPath t p)).2.foldl
        (fun acc e => baseInsertTrk m e.1 e.2 acc.1 acc.2)
        (setEntriesAtPath (selectReinsert ratio (entriesAtPath t p)).1 t p, some p)).1 := by
    simp only [leafMS, hb.2.2]
  rw [hms, hfold.2.2]
  have hkey := hset.2.2.1
  have hsum := hsel.2
  have hcancel : leafMS (setEntriesAtPath (selectReinsert ratio (entriesAtPath t p)).1 t p) +
      ↑(selectReinsert ratio (entriesAtPath t p)).2 + ↑(entriesAtPath t p) =
      leafMS t + ↑(entriesAtPath t p) := by
    calc leafMS (setEntriesAtPath (selectReinsert ratio (entriesAtPath t p)).1 t p) +
          ↑(selectReinsert ratio (entriesAtPath t p)).2 + ↑(entriesAtPath t p)
        = leafMS (setEntriesAtPath (selectReinsert ratio (entriesAtPath t p)).1 t p) +
          ↑(entriesAtPath t p) + ↑(selectReinsert ratio (entriesAtPath t p)).2 := by abel
      _ = leafMS t + ↑(selectReinsert ratio (entriesAtPath t p)).1 +
          ↑(selectReinsert ratio (entriesAtPath t p)).2 := by rw [hkey]
      _ = leafMS t + (↑(selectReinsert ratio (entriesAtPath t p)).1 +
          ↑(selectReinsert ratio (entriesAtPath t p)).2) := by abel
      _ = leafMS t + ↑(entriesAtPath t p) := by rw [hsum]
  exact add_right_cancel hcancel

/-- One R*-insertion (`RStarTree.insert`) on a capacity-correct,
well-formed tree (capacity at least 2) yields a capacity-correct,
well-formed tree storing exactly one more entry; the defensive split of
line 267 is never reached because the reinsertion pass always restores
the capacity bound. -/
theorem starInsert_inv {α : Type} (rc : Rect) (d : α) (s : RStarState α)
    (hm : 2 ≤ s.max_entries)
    (hc : capOK s.max_entries s.root = true) (hn : noEmptyInt s.root = true) :
    capOK s.max_entries (RStarTree.insert rc d s).root = true ∧
    noEmptyInt (RStarTree.insert rc d s).root = true ∧
    leafMS (RStarTree.insert rc d s).root = leafMS s.root + {(rc, d)} := by
  have hp := leafPath_pathOK rc s.root hn
  have hadd := addAtPath_ops s.max_entries rc d (leafPath rc s.root) s.root hp hc
  unfold RStarTree.insert
  dsimp only
  by_cases hov : s.max_entries <
      (entriesAtPath (addAtPath rc d s.root (leafPath rc s.root))
        (leafPath rc s.root)).length
  · rw [if_pos hov]
    have hle : (entriesAtPath (addAtPath rc d s.root (leafPath rc s.root))
        (leafPath rc s.root)).length ≤ s.max_entries + 1 := by
      rw [hadd.2.2.2.2]
      have h0 := capOK_entriesAtPath_le s.max_entries (leafPath rc s.root) s.root hc
      rw [List.length_append, List.length_cons, List.length_nil]
      omega
    have hfro := forcedReinsertOnce_inv s.max_entries hm s.reinsertion_ratio
      (addAtPath rc d s.root (leafPath rc s.root)) (leafPath rc s.root)
      hadd.1 (hadd.2.1 hn) hadd.2.2.2.1 hov hle
    have hlen2 : ¬ (s.max_entries < (entriesAtPathO
        (forcedReinsertOnce s.max_entries s.reinsertion_ratio
          (addAtPath rc d s.root (leafPath rc s.root)) (leafPath rc s.root)).1
        (forcedReinsertOnce s.max_entries s.reinsertion_ratio
          (addAtPath rc d s.root (leafPath rc s.root)) (leafPath rc s.root)).2).length) := by
      cases ho : (forcedReinsertOnce s.max_entries s.reinsertion_ratio
          (addAtPath rc d s.root (leafPath rc s.root)) (leafPath rc s.root)).2 with
      | none => simp [entriesAtPathO]
      | some pp =>
        simp only [entriesAtPathO]
        have h1 := capOK_entriesAtPath_le s.max_entries pp
          (forcedReinsertOnce s.max_entries s.reinsertion_ratio
            (addAtPath rc d s.root (leafPath rc s.root)) (leafPath rc s.root)).1 hfro.1
        omega
    rw [if_neg hlen2]
    dsimp only
    have hb := bubbleUpAtO_inv s.max_entries
      (forcedReinsertOnce s.max_entries s.reinsertion_ratio
        (addAtPath rc d s.root (leafPath rc s.root)) (leafPath rc s.root)).1
      (forcedReinsertOnce s.max_entries s.reinsertion_ratio
        (addAtPath rc d s.root (leafPath rc s.root)) (leafPath rc s.root)).2
      hfro.1 hfro.2.1
    refine ⟨hb.1, hb.2.1, ?_⟩
    show leafMS (bubbleUpAtO _ _) = _
    rw [show leafMS (bubbleUpAtO
        (forcedReinsertOnce s.max_entries s.reinsertion_ratio
          (addAtPath rc d s.root (leafPath rc s.root)) (leafPath rc s.root)).1
        (forcedReinsertOnce s.max_entries s.reinsertion_ratio
          (addAtPath rc d s.root (leafPath rc s.root)) (leafPath rc s.root)).2) =
        leafMS (forcedReinsertOnce s.max_entries s.reinsertion_ratio
          (addAtPath rc d s.root (leafPath rc s.root)) (leafPath rc s.root)).1 from by
      simp only [leafMS, hb.2.2], hfro.2.2, hadd.2.2.1]
  · rw [if_neg hov]
    have hlen2 : ¬ (s.max_entries < (entriesAtPathO
        (addAtPath rc d s.root (leafPath rc s.root), some (leafPath rc s.root)).1
        (addAtPath rc d s.root (leafPath rc s.root), some (leafPath rc s.root)).2).length) := by
      simpa [entriesAtPathO] using hov
    rw [if_neg hlen2]
    dsimp only
    have hc1 : capOK s.max_entries (addAtPath rc d s.root (leafPath rc s.root)) = true :=
      capOKx_resolve s.max_entries (leafPath rc s.root) _ hadd.2.2.2.1 hadd.1 (by omega)
    have hb := bubbleUpAtO_inv s.max_entries
      (addAtPath rc d s.root (leafPath rc s.root)) (some (leafPath rc s.root))
      hc1 (hadd.2.1 hn)
    refine ⟨hb.1, hb.2.1, ?_⟩
    show leafMS (bubbleUpAtO _ _) = _
    rw [show leafMS (bubbleUpAtO (addAtPath rc d s.root (leafPath rc s.root))
        (some (leafPath rc s.root))) =
        leafMS (addAtPath rc d s.root (leafPath rc s.root)) from by
      simp only [leafMS, hb.2.2], hadd.2.2.1]

/-- Folding base insertions at the state level. -/
theorem applyBase_inv {α : Type} :
    ∀ (ops : List (Rect × α)) (s : RTreeState α), 2 ≤ s.max_entries →
    capOK s.max_entries s.root = true → noEmptyInt s.root = true →
    (applyBase s ops).max_entries = s.max_entries ∧
    capOK s.max_entries (applyBase s ops).root = true ∧
    noEmptyInt (applyBase s ops).root = true ∧
    leafMS (applyBase s ops).root = leafMS s.root + ↑ops
  | [], s, _, hc, hn => ⟨rfl, hc, hn, by simp [applyBase]⟩
  | e :: ops, s, hm, hc, hn => by
    have h1 := baseInsertTrk_inv s.max_entries hm e.1 e.2 s.root none hc hn
    have hstep : applyBase s (e :: ops) = applyBase (RTree.insert e.1 e.2 s) ops := rfl
    have hmax : (RTree.insert e.1 e.2 s).max_entries = s.max_entries := rfl
    have ih := applyBase_inv ops (RTree.insert e.1 e.2 s) (by rw [hmax]; exact hm)
      (by rw [hmax]; exact h1.1) h1.2.1
    rw [hstep]
    rw [hmax] at ih
    refine ⟨ih.1, ih.2.1, ih.2.2.1, ?_⟩
    rw [ih.2.2.2]
    show leafMS (baseInsertTrk s.max_entries e.1 e.2 s.root none).1 + ↑ops = _
    rw [h1.2.2, ← Multiset.cons_coe, ← Multiset.singleton_add]
    abel

/-- Folding R*-insertions at the state level. -/
theorem applyStar_inv {α : Type} :
    ∀ (ops : List (Rect × α)) (s : RStarState α), 2 ≤ s.max_entries →
    capOK s.max_entries s.root = true → noEmptyInt s.root = true →
    (applyStar s ops).max_entries = s.max_entries ∧
    capOK s.max_entries (applyStar s ops).root = true ∧
    noEmptyInt (applyStar s ops).root = true ∧
    leafMS (applyStar s ops).root = leafMS s.root + ↑ops
  | [], s, _, hc, hn => ⟨rfl, hc, hn, by simp [applyStar]⟩
  | e :: ops, s, hm, hc, hn => by
    have h1 := starInsert_inv e.1 e.2 s hm hc hn
    have hstep : applyStar s (e :: ops) = applyStar (RStarTree.insert e.1 e.2 s) ops := rfl
    have hmax : (RStarTree.insert e.1 e.2 s).max_entries = s.max_entries := by
      unfold RStarTree.insert
      dsimp only
      split <;> split <;> rfl
    have ih := applyStar_inv ops (RStarTree.insert e.1 e.2 s) (by rw [hmax]; exact hm)
      (by rw [hmax]; exact h1.1) h1.2.1
    rw [hstep]
    rw [hmax] at ih
    refine ⟨ih.1, ih.2.1, ih.2.2.1, ?_⟩
    rw [ih.2.2.2, h1.2.2, ← Multiset.cons_coe, ← Multiset.singleton_add]
    abel

/-- C3: on either index with capacity at least 2 (and any reinsertion
ratio), after every insertion sequence each node reachable from the
root holds at most `maxEntries` entries — overflow created during an
insert is fully resolved before the insert returns. -/
theorem c3_capacity_bound {α : Type} (maxE : Nat) (ratio : ℚ) (hm : 2 ≤ maxE)
    (ops : List (Rect × α)) :
    capOK maxE (applyBase (RTree.init α maxE) ops).root = true ∧
    capOK maxE (applyStar (RStarTree.init α maxE ratio) ops).root = true :=
  ⟨(applyBase_inv ops (RTree.init α maxE) hm (by simp [RTree.init, capOK])
      (by simp [RTree.init, noEmptyInt])).2.1,
   (applyStar_inv ops (RStarTree.init α maxE ratio) hm
      (by simp [RStarTree.init, capOK]) (by simp [RStarTree.init, noEmptyInt])).2.1⟩

/-- Witness for `c3_capacity_bound` on the concrete four-point
sequence with capacity 2. -/
theorem c3_capacity_bound_witness :
    2 ≤ 2 ∧
    capOK 2 (applyBase (RTree.init Nat 2) opsA).root = true ∧
    capOK 2 (applyStar (RStarTree.init Nat 2 (3 / 10)) opsA).root = true :=
  ⟨by decide, (c3_capacity_bound 2 (3 / 10) (by decide) opsA).1,
    (c3_capacity_bound 2 (3 / 10) (by decide) opsA).2⟩

/-- C10: on either index with capacity at least 2, after every
insertion sequence the multiset of (rectangle, payload) pairs stored in
the leaves equals the multiset of inserted pairs: splits and forced
reinsertion relocate entries but never drop or duplicate one. -/
theorem c10_entries_preserved {α : Type} (maxE : Nat) (ratio : ℚ) (hm : 2 ≤ maxE)
    (ops : List (Rect × α)) :
    leafMS (applyBase (RTree.init α maxE) ops).root = (↑ops : Multiset (Rect × α)) ∧
    leafMS (applyStar (RStarTree.init α maxE ratio) ops).root =
      (↑ops : Multiset (Rect × α)) := by
  have h1 := (applyBase_inv ops (RTree.init α maxE) hm (by simp [RTree.init, capOK])
    (by simp [RTree.init, noEmptyInt])).2.2.2
  have h2 := (applyStar_inv ops (RStarTree.init α maxE ratio) hm
    (by simp [RStarTree.init, capOK]) (by simp [RStarTree.init, noEmptyInt])).2.2.2
  constructor
  · rw [h1]
    show leafMS (Node.leaf []) + (↑ops : Multiset (Rect × α)) = ↑ops
    simp [leafMS, leafList]
  · rw [h2]
    show leafMS (Node.leaf []) + (↑ops : Multiset (Rect × α)) = ↑ops
    simp [leafMS, leafList]

/-- Witness for `c10_entries_preserved` on the concrete four-point
sequence with capacity 2. -/
theorem c10_entries_preserved_witness :
    2 ≤ 2 ∧
    leafMS (applyBase (RTree.init Nat 2) opsA).root = (↑opsA : Multiset (Rect × Nat)) :=
  ⟨by decide, (c10_entries_preserved 2 (3 / 10) (by decide) opsA).1⟩
